import Mathlib

/-!
# Verification of the CogniCrypt_DOC_LLM core components

A shallow embedding, in Lean 4, of the core components of the
CogniCrypt_DOC_LLM repository:

* the CrySL rule-section parser (`crysl_to_json_lines` in
  `src/llm/llm_writer.py`),
* the dependency-constraint / dependency-ensures resolvers
  (`collect_dependency_constraints`, `collect_dependency_ensures` in
  `src/llm/llm_writer.py`),
* the embedding index (`EmbeddingIndex.build` / `EmbeddingIndex.search` in
  `src/llm/paper_index.py`),
* the PDF chunker (`_chunk_text`) and the cache check of `build_pdf_index`
  (`src/llm/paper_index.py`).

Python strings are modelled as `List Char` (Python `len` counts code
points, as does `List.length`).  Machine floats are modelled as real
numbers; file systems and external providers are modelled as explicit
function arguments.  Each definition carries a comment naming the source
construct it embeds.
-/

/-! ## Python string primitives -/

/-- Characters treated as whitespace by Python's `str.strip()` /
`str.isspace()` (the ASCII whitespace characters together with the
common Unicode whitespace code points; an approximation of Python's full
Unicode table, which agrees with it on every character appearing in this
development). -/
def pyIsSpace (c : Char) : Bool :=
  c = ' ' || c = '\t' || c = '\n' || c = '\r' || c = '\x0b' || c = '\x0c' ||
  c = '\x1c' || c = '\x1d' || c = '\x1e' || c = '\x1f' || c = '\x85' ||
  c = '\xa0' || c = ' ' || c = ' ' || c = '　'

/-- Python `str.strip()` on a list of characters: drop whitespace from
both ends. -/
def pyStrip (cs : List Char) : List Char :=
  ((cs.dropWhile pyIsSpace).reverse.dropWhile pyIsSpace).reverse

/-- Python `str.strip()` on a `String`. -/
def pyStripStr (s : String) : String :=
  String.mk (pyStrip s.data)

/-- Characters on which Python `str.splitlines()` breaks a line
(`\n`, `\r`, `\v`, `\f`, the file/group/record separators, NEL, and the
Unicode line/paragraph separators). -/
def pyIsLineBreak (c : Char) : Bool :=
  c = '\n' || c = '\r' || c = '\x0b' || c = '\x0c' || c = '\x1c' ||
  c = '\x1d' || c = '\x1e' || c = '\x85' || c = ' ' || c = ' '

/-- Python `str.splitlines()`: split at line boundaries, treating `\r\n`
as a single boundary; a trailing line break does not produce a final
empty line, and `"".splitlines() = []`. -/
def pySplitlines : List Char → List (List Char)
  | [] => []
  | '\r' :: '\n' :: rest => [] :: pySplitlines rest
  | c :: rest =>
    if pyIsLineBreak c then
      [] :: pySplitlines rest
    else
      match pySplitlines rest with
      | [] => [[c]]
      | l :: ls => (c :: l) :: ls

example : pySplitlines "ab\ncd".data = ["ab".data, "cd".data] := by decide
example : pySplitlines "ab\r\n".data = ["ab".data] := by decide
example : pySplitlines "\n".data = [[]] := by decide

/-- Python `str.split("\n")`: split on every `\n`; `"".split("\n")`
is `[""]`. -/
def pySplitNl : List Char → List (List Char)
  | [] => [[]]
  | c :: rest =>
    if c = '\n' then
      [] :: pySplitNl rest
    else
      match pySplitNl rest with
      | [] => [[c]]
      | l :: ls => (c :: l) :: ls

example : pySplitNl "a\n\nb".data = ["a".data, [], "b".data] := by decide
example : pySplitNl "".data = [[]] := by decide

/-! ## The CrySL rule-section parser

Embeds `crysl_to_json_lines` of `src/llm/llm_writer.py` (the lenient
variant): the text is scanned with the regular expression
`\b(SPEC|OBJECTS|EVENTS|ORDER|CONSTRAINTS|REQUIRES|ENSURES|FORBIDDEN)\b`,
and for each match the span up to the next match (or the end of the
text) is stripped, split into lines, and the trimmed non-empty lines are
stored in a dict under the header (later duplicate headers overwrite
earlier ones). -/

/-- The eight recognized section headers, in the order they appear in
the regular expression's alternation. -/
def crySections : List String :=
  ["SPEC", "OBJECTS", "EVENTS", "ORDER", "CONSTRAINTS", "REQUIRES",
   "ENSURES", "FORBIDDEN"]

/-- Python regex word character `\w` (restricted to ASCII; Python's
Unicode `\w` also covers non-ASCII word characters, none of which occur
in the section tokens, so boundaries around section tokens agree for
ASCII rule texts). -/
def isWordChar (c : Char) : Bool :=
  c.isAlphanum || c = '_'

/-- The `\b` word-boundary test on the left of a match: satisfied at the
start of the text or after a non-word character (all section tokens
start with a word character). -/
def boundaryOkBefore (prev : Option Char) : Bool :=
  match prev with
  | none => true
  | some c => !(isWordChar c)

/-- The `\b` word-boundary test on the right of a match: satisfied at
the end of the text or before a non-word character (all section tokens
end with a word character). -/
def boundaryOkAfter : List Char → Bool
  | [] => true
  | c :: _ => !(isWordChar c)

/-- Try to match one of the section tokens at the current position,
given the previous character (`none` at the start of the text) and the
remaining text.  Mirrors the alternation
`\b(SPEC|OBJECTS|EVENTS|ORDER|CONSTRAINTS|REQUIRES|ENSURES|FORBIDDEN)\b`:
alternatives are tried in list order. -/
def matchHeaderAt (prev : Option Char) (cs : List Char) : Option String :=
  if boundaryOkBefore prev then
    crySections.find? fun s =>
      s.data.isPrefixOf cs && boundaryOkAfter (cs.drop s.data.length)
  else
    none

/-- The scan underlying `re.finditer`: at every position try
`matchHeaderAt` and record `(position, header)` on success.  The scan
advances one character at a time even after a match; this coincides with
`finditer`'s resume-after-the-match behaviour because matches of this
particular pattern can never overlap: every character of a section token
is a word character, so `\b` fails at every position strictly inside a
match and at the position immediately after it. -/
def scanAux (prev : Option Char) (pos : Nat) : List Char → List (Nat × String)
  | [] => []
  | c :: rest =>
    match matchHeaderAt prev (c :: rest) with
    | some h => (pos, h) :: scanAux (some c) (pos + 1) rest
    | none => scanAux (some c) (pos + 1) rest

/-- `list(pat.finditer(crysl_text))` as a list of (start position,
matched header) pairs. -/
def findMatches (cs : List Char) : List (Nat × String) :=
  scanAux none 0 cs

/-- The slice `cs[a:b]` of Python. -/
def pySlice (cs : List Char) (a b : Nat) : List Char :=
  (cs.drop a).take (b - a)

/-- For each match, the raw section region: the span of the text
strictly between the end of the matched header token and the start of
the next match (or the end of the text).  This is the
`crysl_text[start:end]` taken in the loop of `crysl_to_json_lines`. -/
def sectionRegions (cs : List Char) : List (Nat × String) → List (String × List Char)
  | [] => []
  | (p, h) :: rest =>
    let start := p + h.data.length
    let stop := match rest with
      | [] => cs.length
      | (q, _) :: _ => q
    (h, pySlice cs start stop) :: sectionRegions cs rest

/-- `raw_lines = region.strip().splitlines()` followed by
`[line.strip() for line in raw_lines if line.strip()]`. -/
def cleanLines (region : List Char) : List String :=
  (((pySplitlines (pyStrip region)).map pyStrip).filter
    fun l => l ≠ []).map String.mk

/-- Python dict assignment `d[k] = v`: replace the value in place if the
key is present (keeping its original position), otherwise append. -/
def dictInsert {α : Type} : List (String × α) → String → α → List (String × α)
  | [], k, v => [(k, v)]
  | (k', v') :: rest, k, v =>
    if k' = k then (k, v) :: rest else (k', v') :: dictInsert rest k v

/-- `crysl_to_json_lines` of `src/llm/llm_writer.py`, on a character
list: scan for header matches, extract each region, clean its lines and
store them under the header (Python dict semantics). -/
def cryslToJsonLines (cs : List Char) : List (String × List String) :=
  (sectionRegions cs (findMatches cs)).foldl
    (fun out hr => dictInsert out hr.1 (cleanLines hr.2)) []

/-- `crysl_to_json_lines` on a `String`. -/
def cryslToJsonLinesStr (s : String) : List (String × List String) :=
  cryslToJsonLines s.data

/-! ## Lemmas about the header scan -/

/-- Every character of every section token is a word character. -/
lemma crySections_wordChars :
    ∀ s ∈ crySections, ∀ c ∈ s.data, isWordChar c = true := by decide

/-- Every section token is non-empty. -/
lemma crySections_ne_nil : ∀ s ∈ crySections, s.data ≠ [] := by decide

/-- A successful header match yields a section token that is a prefix of
the remaining text. -/
lemma matchHeaderAt_spec {prev : Option Char} {cs : List Char} {h : String}
    (hm : matchHeaderAt prev cs = some h) :
    h ∈ crySections ∧ h.data <+: cs := by
  unfold matchHeaderAt at hm
  by_cases hb : boundaryOkBefore prev = true
  · simp only [hb, if_true] at hm
    refine ⟨List.mem_of_find?_eq_some hm, ?_⟩
    have := List.find?_some hm
    simp only [Bool.and_eq_true] at this
    exact List.isPrefixOf_iff_prefix.mp this.1
  · simp [hb] at hm

/-- No header match can start right after a word character. -/
lemma matchHeaderAt_word_prev {p : Char} (hw : isWordChar p = true)
    (cs : List Char) : matchHeaderAt (some p) cs = none := by
  unfold matchHeaderAt
  simp [boundaryOkBefore, hw]


/-- A header match does not depend on the previous character once it
succeeds: it also succeeds with no previous character. -/
lemma matchHeaderAt_none_of_some {prev : Option Char} {cs : List Char}
    {h : String} (hm : matchHeaderAt prev cs = some h) :
    matchHeaderAt none cs = some h := by
  unfold matchHeaderAt at hm ⊢
  by_cases hb : boundaryOkBefore prev = true
  · rw [hb] at hm
    simp only [eq_self_iff_true, if_true] at hm
    simpa [boundaryOkBefore] using hm
  · simp [hb] at hm

/-- A matched header token is non-empty. -/
lemma matchHeaderAt_len_pos {prev : Option Char} {cs : List Char}
    {h : String} (hm : matchHeaderAt prev cs = some h) :
    1 ≤ h.data.length := by
  have hmem := (matchHeaderAt_spec hm).1
  cases hd : h.data with
  | nil => exact absurd hd (crySections_ne_nil h hmem)
  | cons _ _ => simp [hd]

lemma scanAux_nil (prev : Option Char) (pos : Nat) : scanAux prev pos [] = [] := rfl

lemma scanAux_cons_some {prev : Option Char} {c : Char} {rest : List Char}
    {h : String} (hm : matchHeaderAt prev (c :: rest) = some h) (pos : Nat) :
    scanAux prev pos (c :: rest) = (pos, h) :: scanAux (some c) (pos + 1) rest := by
  conv_lhs => unfold scanAux
  rw [hm]

lemma scanAux_cons_none {prev : Option Char} {c : Char} {rest : List Char}
    (hm : matchHeaderAt prev (c :: rest) = none) (pos : Nat) :
    scanAux prev pos (c :: rest) = scanAux (some c) (pos + 1) rest := by
  conv_lhs => unfold scanAux
  rw [hm]

/-- Every match position produced by the scan is at least the scan's
base position. -/
lemma scanAux_pos_le {cs : List Char} :
    ∀ {prev pos p h}, (p, h) ∈ scanAux prev pos cs → pos ≤ p := by
  induction cs with
  | nil => intro prev pos p h hm; simp [scanAux] at hm
  | cons c rest ih =>
    intro prev pos p h hm
    cases hmh : matchHeaderAt prev (c :: rest) with
    | some h' =>
      rw [scanAux_cons_some hmh pos] at hm
      rcases List.mem_cons.mp hm with heq | htail
      · cases heq; exact le_refl _
      · exact le_trans (Nat.le_succ _) (ih htail)
    | none =>
      rw [scanAux_cons_none hmh pos] at hm
      exact le_trans (Nat.le_succ _) (ih hm)

/-- Every match position produced by the scan is strictly below the end
of the scanned text. -/
lemma scanAux_pos_lt {cs : List Char} :
    ∀ {prev pos p h}, (p, h) ∈ scanAux prev pos cs → p < pos + cs.length := by
  induction cs with
  | nil => intro prev pos p h hm; simp [scanAux] at hm
  | cons c rest ih =>
    intro prev pos p h hm
    have step : ∀ {q h'}, (q, h') ∈ scanAux (some c) (pos + 1) rest →
        q < pos + (c :: rest).length := by
      intro q h' hq
      have := ih hq
      simp only [List.length_cons]
      omega
    cases hmh : matchHeaderAt prev (c :: rest) with
    | some h' =>
      rw [scanAux_cons_some hmh pos] at hm
      rcases List.mem_cons.mp hm with heq | htail
      · cases heq; simp
      · exact step htail
    | none =>
      rw [scanAux_cons_none hmh pos] at hm
      exact step hm

/-- Scanning a run of word characters preceded by a word character
records no match (the left `\b` fails throughout the run). -/
lemma scanAux_word_run :
    ∀ (ws cs : List Char) (pos : Nat) (w : Char),
      isWordChar w = true → (∀ x ∈ ws, isWordChar x = true) →
      scanAux (some w) pos (ws ++ cs) =
        scanAux (some (ws.getLastD w)) (pos + ws.length) cs := by
  intro ws
  induction ws with
  | nil => intro cs pos w _ _; simp
  | cons w' ws' ih =>
    intro cs pos w hw hws
    rw [List.cons_append,
      scanAux_cons_none (matchHeaderAt_word_prev hw _) pos,
      ih cs (pos + 1) w' (hws w' (by simp)) (fun x hx => hws x (by simp [hx]))]
    have harith : pos + 1 + ws'.length = pos + (w' :: ws').length := by
      simp; omega
    rw [harith, List.getLastD_cons]

/-- After a successful match at the head, the remainder scan equals the
scan that resumes immediately after the matched header token (this is
where `finditer` resumes; the two agree because no match can start
inside or directly after the token). -/
lemma scanAux_after_match {prev : Option Char} {c : Char} {rest : List Char}
    {h : String} (hm : matchHeaderAt prev (c :: rest) = some h) (pos : Nat) :
    scanAux (some c) (pos + 1) rest =
      scanAux (some (h.data.tail.getLastD c)) (pos + h.data.length)
        ((c :: rest).drop h.data.length) := by
  obtain ⟨hmem, hpre⟩ := matchHeaderAt_spec hm
  obtain ⟨suffix, hsuf⟩ := hpre
  have hsuf0 := hsuf
  have hwords : ∀ y ∈ h.data, isWordChar y = true := crySections_wordChars h hmem
  obtain ⟨x, t, hd⟩ : ∃ x t, h.data = x :: t := by
    cases hd : h.data with
    | nil => exact absurd hd (crySections_ne_nil h hmem)
    | cons x t => exact ⟨x, t, rfl⟩
  rw [hd] at hsuf
  simp only [List.cons_append, List.cons.injEq] at hsuf
  obtain ⟨hx, hrest⟩ := hsuf
  have hc : isWordChar c = true := hx ▸ hwords x (by rw [hd]; simp)
  have htw : ∀ y ∈ t, isWordChar y = true := fun y hy => hwords y (by rw [hd]; simp [hy])
  have hdropeq : (c :: rest).drop h.data.length = suffix := by
    rw [← hsuf0, List.drop_left]
  rw [hdropeq, ← hrest, scanAux_word_run t suffix (pos + 1) c hc htw, hd]
  have harith : pos + 1 + t.length = pos + (x :: t).length := by simp; omega
  rw [harith, List.tail_cons]

/-- Chain well-formedness of a match list: every match starts at or
after the base position, and each subsequent match starts at or after
the end of the previous one (matches in order, non-overlapping). -/
def chainFrom (pos : Nat) : List (Nat × String) → Prop
  | [] => True
  | (p, h) :: rest => pos ≤ p ∧ chainFrom (p + h.data.length) rest

lemma chainFrom_mono {ms : List (Nat × String)} {pos pos' : Nat}
    (hle : pos' ≤ pos) (hc : chainFrom pos ms) : chainFrom pos' ms := by
  cases ms with
  | nil => trivial
  | cons ph tl =>
    obtain ⟨p, h⟩ := ph
    exact ⟨le_trans hle hc.1, hc.2⟩

/-- The scan always produces a chain-well-formed match list. -/
lemma chainFrom_scanAux :
    ∀ (n : Nat) (cs : List Char), cs.length ≤ n →
      ∀ (prev : Option Char) (pos : Nat), chainFrom pos (scanAux prev pos cs) := by
  intro n
  induction n with
  | zero =>
    intro cs hlen prev pos
    have : cs = [] := List.length_eq_zero.mp (Nat.le_zero.mp hlen)
    subst this
    trivial
  | succ n ih =>
    intro cs hlen prev pos
    cases cs with
    | nil => trivial
    | cons c rest =>
      have hrest : rest.length ≤ n := by simp at hlen; omega
      cases hm : matchHeaderAt prev (c :: rest) with
      | none =>
        rw [scanAux_cons_none hm pos]
        exact chainFrom_mono (Nat.le_succ pos) (ih rest hrest _ _)
      | some h =>
        rw [scanAux_cons_some hm pos]
        refine ⟨le_refl _, ?_⟩
        rw [scanAux_after_match hm pos]
        have hL := matchHeaderAt_len_pos hm
        have hsuffix : ((c :: rest).drop h.data.length).length ≤ n := by
          simp only [List.length_drop, List.length_cons]
          omega
        exact ih _ hsuffix _ _

/-- Rebuild a text from a match list: the gap before each match,
followed by the matched header token, recursively.  Succeeds only when
the matches appear in order (each starting at or after the end of the
previous one); the result equals the original text exactly when every
gap and header sits where the match list claims. -/
def rebuildChain (cs : List Char) (pos : Nat) : List (Nat × String) → Option (List Char)
  | [] => some cs
  | (p, h) :: rest =>
    if pos ≤ p then
      match rebuildChain (cs.drop (p - pos + h.data.length)) (p + h.data.length) rest with
      | some tl => some (cs.take (p - pos) ++ h.data ++ tl)
      | none => none
    else none

/-- Shifting a rebuild across one unconsumed character. -/
lemma rebuildChain_cons {c : Char} {rest : List Char} {pos : Nat}
    {ms : List (Nat × String)}
    (hpos : ∀ q ∈ ms, pos + 1 ≤ q.1)
    (hre : rebuildChain rest (pos + 1) ms = some rest) :
    rebuildChain (c :: rest) pos ms = some (c :: rest) := by
  cases ms with
  | nil => simp [rebuildChain]
  | cons ph tl =>
    obtain ⟨p, h⟩ := ph
    have hp : pos + 1 ≤ p := hpos (p, h) (by simp)
    unfold rebuildChain at hre ⊢
    rw [if_pos hp] at hre
    rw [if_pos (show pos ≤ p by omega)]
    have hdrop : (c :: rest).drop (p - pos + h.data.length) =
        rest.drop (p - (pos + 1) + h.data.length) := by
      have harith : p - pos + h.data.length = (p - (pos + 1) + h.data.length) + 1 := by
        omega
      rw [harith, List.drop_succ_cons]
    have htake : (c :: rest).take (p - pos) = c :: rest.take (p - (pos + 1)) := by
      have harith : p - pos = (p - (pos + 1)) + 1 := by omega
      rw [harith, List.take_succ_cons]
    rw [hdrop, htake]
    cases hinner : rebuildChain (rest.drop (p - (pos + 1) + h.data.length))
        (p + h.data.length) tl with
    | none => rw [hinner] at hre; simp at hre
    | some tl' =>
      rw [hinner] at hre
      simp only [Option.some.injEq] at hre ⊢
      simp only [List.append_assoc, List.cons_append] at hre ⊢
      rw [hre]

/-- The scan's match list rebuilds the scanned text exactly: the text is
the concatenation of the gap before the first match, the first header
token, the gap to the second match, the second header token, and so on,
up to the tail after the last match. -/
lemma rebuildChain_scanAux :
    ∀ (n : Nat) (cs : List Char), cs.length ≤ n →
      ∀ (prev : Option Char) (pos : Nat),
        rebuildChain cs pos (scanAux prev pos cs) = some cs := by
  intro n
  induction n with
  | zero =>
    intro cs hlen prev pos
    have : cs = [] := List.length_eq_zero.mp (Nat.le_zero.mp hlen)
    subst this
    simp [scanAux, rebuildChain]
  | succ n ih =>
    intro cs hlen prev pos
    cases cs with
    | nil => simp [scanAux, rebuildChain]
    | cons c rest =>
      have hrest : rest.length ≤ n := by simp at hlen; omega
      cases hm : matchHeaderAt prev (c :: rest) with
      | none =>
        rw [scanAux_cons_none hm pos]
        refine rebuildChain_cons ?_ (ih rest hrest _ _)
        intro q hq
        obtain ⟨p, h⟩ := q
        exact scanAux_pos_le hq
      | some h =>
        rw [scanAux_cons_some hm pos]
        have hL := matchHeaderAt_len_pos hm
        obtain ⟨hmem, hpre⟩ := matchHeaderAt_spec hm
        obtain ⟨suffix, hsuf⟩ := hpre
        have hdropeq : (c :: rest).drop (pos - pos + h.data.length) = suffix := by
          rw [Nat.sub_self, Nat.zero_add, ← hsuf, List.drop_left]
        have hlencs := congrArg List.length hsuf
        rw [List.length_append, List.length_cons] at hlencs
        have hsufflen : suffix.length ≤ n := by omega
        unfold rebuildChain
        rw [if_pos (le_refl pos), hdropeq, scanAux_after_match hm pos]
        have hdrop2 : (c :: rest).drop h.data.length = suffix := by
          rw [← hsuf, List.drop_left]
        rw [hdrop2, ih suffix hsufflen _ _]
        simp only [Nat.sub_self, List.take_zero, List.nil_append, Option.some.injEq]
        exact hsuf

/-- The `end` used for the region of the match that precedes `ms`: the
start of the first match of `ms`, or the end of the text (`pos` is the
base position of the remaining text `cs`). -/
def headStop (pos : Nat) (cs : List Char) : List (Nat × String) → Nat
  | [] => pos + cs.length
  | (q, _) :: _ => q

/-- `sectionRegions`, generalized to a suffix `cs` of the scanned text
starting at absolute position `pos` (match positions stay absolute). -/
def regionsFrom (cs : List Char) (pos : Nat) : List (Nat × String) → List (String × List Char)
  | [] => []
  | (p, h) :: rest =>
    (h, pySlice cs (p + h.data.length - pos) (headStop pos cs rest - pos)) ::
      regionsFrom cs pos rest

/-- At base position 0, `regionsFrom` is exactly `sectionRegions`. -/
lemma regionsFrom_zero (cs : List Char) :
    ∀ ms, regionsFrom cs 0 ms = sectionRegions cs ms := by
  intro ms
  induction ms with
  | nil => rfl
  | cons ph tl ih =>
    obtain ⟨p, h⟩ := ph
    cases tl with
    | nil => simp [regionsFrom, sectionRegions, headStop]
    | cons q tl' =>
      obtain ⟨q1, q2⟩ := q
      simp only [regionsFrom, sectionRegions, headStop, Nat.sub_zero] at ih ⊢
      rw [ih]

/-- Shifting `regionsFrom` across `k` consumed characters: if every
match of `ms` starts at or after `pos + k`, the regions computed from
the suffix agree. -/
lemma regionsFrom_drop_shift :
    ∀ (ms : List (Nat × String)) (cs : List Char) (pos k : Nat),
      k ≤ cs.length → (∀ q ∈ ms, pos + k ≤ q.1) →
      regionsFrom cs pos ms = regionsFrom (cs.drop k) (pos + k) ms := by
  intro ms
  induction ms with
  | nil => intros; rfl
  | cons ph tl ih =>
    intro cs pos k hk hpos
    obtain ⟨p, h⟩ := ph
    have hp : pos + k ≤ p := hpos (p, h) (by simp)
    have hhead :
        pySlice cs (p + h.data.length - pos) (headStop pos cs tl - pos) =
          pySlice (cs.drop k) (p + h.data.length - (pos + k))
            (headStop (pos + k) (cs.drop k) tl - (pos + k)) := by
      unfold pySlice
      rw [List.drop_drop]
      have hdropidx : k + (p + h.data.length - (pos + k)) = p + h.data.length - pos := by
        omega
      rw [hdropidx]
      congr 1
      cases tl with
      | nil =>
        simp only [headStop, List.length_drop]
        omega
      | cons q tl' =>
        obtain ⟨q1, q2⟩ := q
        simp only [headStop]
        omega
    simp only [regionsFrom]
    rw [hhead, ih cs pos k hk (fun q hq => hpos q (by simp [hq]))]

/-- Reassemble a text from its match list: the text before the first
match, then for each match its header token followed by its region. -/
def glueFrom (cs : List Char) (pos : Nat) (ms : List (Nat × String)) : List Char :=
  cs.take (headStop pos cs ms - pos) ++
    ((regionsFrom cs pos ms).map fun hr => hr.1.data ++ hr.2).flatten

/-- The scan's match list, together with its regions, reassembles the
scanned text exactly. -/
lemma glueFrom_scanAux :
    ∀ (n : Nat) (cs : List Char), cs.length ≤ n →
      ∀ (prev : Option Char) (pos : Nat),
        glueFrom cs pos (scanAux prev pos cs) = cs := by
  intro n
  induction n with
  | zero =>
    intro cs hlen prev pos
    have : cs = [] := List.length_eq_zero.mp (Nat.le_zero.mp hlen)
    subst this
    simp [glueFrom, scanAux, regionsFrom, headStop]
  | succ n ih =>
    intro cs hlen prev pos
    cases cs with
    | nil => simp [glueFrom, scanAux, regionsFrom, headStop]
    | cons c rest =>
      have hrest : rest.length ≤ n := by simp at hlen; omega
      cases hm : matchHeaderAt prev (c :: rest) with
      | none =>
        rw [scanAux_cons_none hm pos]
        cases hms : scanAux (some c) (pos + 1) rest with
        | nil => simp [glueFrom, hms, regionsFrom, headStop]
        | cons q tl' =>
          obtain ⟨p, h⟩ := q
          have hp : pos + 1 ≤ p := scanAux_pos_le (hms ▸ List.mem_cons_self _ _)
          have hshift : regionsFrom (c :: rest) pos ((p, h) :: tl') =
              regionsFrom rest (pos + 1) ((p, h) :: tl') := by
            have := regionsFrom_drop_shift ((p, h) :: tl') (c :: rest) pos 1
              (by simp) (fun q hq => by
                obtain ⟨q1, q2⟩ := q
                exact scanAux_pos_le (hms ▸ hq))
            simpa using this
          have htake : (c :: rest).take (headStop pos (c :: rest) ((p, h) :: tl') - pos) =
              c :: rest.take (headStop (pos + 1) rest ((p, h) :: tl') - (pos + 1)) := by
            simp only [headStop]
            have harith : p - pos = (p - (pos + 1)) + 1 := by omega
            rw [harith, List.take_succ_cons]
          have hglue := ih rest hrest (some c) (pos + 1)
          rw [hms] at hglue
          unfold glueFrom at hglue ⊢
          rw [hshift, htake, List.cons_append, hglue]
      | some h =>
        rw [scanAux_cons_some hm pos]
        have hL := matchHeaderAt_len_pos hm
        obtain ⟨hmem, hpre⟩ := matchHeaderAt_spec hm
        obtain ⟨suffix, hsuf⟩ := hpre
        have hdrop2 : (c :: rest).drop h.data.length = suffix := by
          rw [← hsuf, List.drop_left]
        have hlencs : h.data.length + suffix.length = rest.length + 1 := by
          have := congrArg List.length hsuf
          rw [List.length_append, List.length_cons] at this
          exact this
        have hsufflen : suffix.length ≤ n := by omega
        have hksuff : h.data.length ≤ (c :: rest).length := by
          simp only [List.length_cons]
          omega
        rw [scanAux_after_match hm pos, hdrop2]
        have hglue := ih suffix hsufflen (some (h.data.tail.getLastD c))
          (pos + h.data.length)
        set ms' := scanAux (some (h.data.tail.getLastD c)) (pos + h.data.length) suffix
          with hms'
        have hposms' : ∀ q ∈ ms', pos + h.data.length ≤ q.1 := by
          intro q hq
          obtain ⟨q1, q2⟩ := q
          exact scanAux_pos_le hq
        have hshift : regionsFrom (c :: rest) pos ms' =
            regionsFrom suffix (pos + h.data.length) ms' := by
          have := regionsFrom_drop_shift ms' (c :: rest) pos h.data.length hksuff hposms'
          rw [hdrop2] at this
          exact this
        have hslice : pySlice (c :: rest) (pos + h.data.length - pos)
              (headStop pos (c :: rest) ms' - pos) =
            suffix.take (headStop (pos + h.data.length) suffix ms' - (pos + h.data.length)) := by
          unfold pySlice
          have hidx : pos + h.data.length - pos = h.data.length := by omega
          rw [hidx, hdrop2]
          congr 1
          cases hc : ms' with
          | nil =>
            simp only [headStop, List.length_cons]
            omega
          | cons q tl' =>
            obtain ⟨q1, q2⟩ := q
            have hq1 : pos + h.data.length ≤ q1 :=
              hposms' (q1, q2) (by rw [hc]; simp)
            simp only [headStop]
            omega
        unfold glueFrom at hglue ⊢
        rw [show headStop pos (c :: rest) ((pos, h) :: ms') = pos from rfl, Nat.sub_self,
          List.take_zero, List.nil_append,
          show regionsFrom (c :: rest) pos ((pos, h) :: ms') =
            (h, pySlice (c :: rest) (pos + h.data.length - pos)
              (headStop pos (c :: rest) ms' - pos)) :: regionsFrom (c :: rest) pos ms'
            from rfl,
          hshift, hslice, List.map_cons, List.flatten_cons, List.append_assoc, hglue]
        exact hsuf

/-- Shifting the base position of a scan shifts every recorded match
position. -/
lemma scanAux_shift :
    ∀ (cs : List Char) (prev : Option Char) (pos k : Nat),
      scanAux prev (pos + k) cs = (scanAux prev pos cs).map fun q => (q.1 + k, q.2) := by
  intro cs
  induction cs with
  | nil => intros; rfl
  | cons c rest ih =>
    intro prev pos k
    cases hm : matchHeaderAt prev (c :: rest) with
    | none =>
      rw [scanAux_cons_none hm, scanAux_cons_none hm]
      have harith : pos + k + 1 = (pos + 1) + k := by omega
      rw [harith, ih]
    | some h =>
      rw [scanAux_cons_some hm, scanAux_cons_some hm, List.map_cons]
      have harith : pos + k + 1 = (pos + 1) + k := by omega
      rw [harith, ih]

/-- Dropping the text before the first match produces the same match
list, shifted to start at position 0. -/
lemma scanAux_drop_first :
    ∀ (cs : List Char) (prev : Option Char) (pos p : Nat) (h : String)
      (tl : List (Nat × String)),
      scanAux prev pos cs = (p, h) :: tl →
      scanAux none 0 (cs.drop (p - pos)) =
        ((p, h) :: tl).map fun q => (q.1 - p, q.2) := by
  intro cs
  induction cs with
  | nil => intro prev pos p h tl hscan; simp [scanAux] at hscan
  | cons c rest ih =>
    intro prev pos p h tl hscan
    cases hm : matchHeaderAt prev (c :: rest) with
    | some h' =>
      rw [scanAux_cons_some hm pos] at hscan
      obtain ⟨hhead, htl⟩ := List.cons.injEq .. ▸ hscan
      obtain ⟨hp, hh⟩ := Prod.mk.injEq .. ▸ hhead
      subst hp
      subst hh
      subst htl
      rw [Nat.sub_self, List.drop_zero,
        scanAux_cons_some (matchHeaderAt_none_of_some hm) 0, List.map_cons]
      refine congrArg₂ List.cons (by simp) ?_
      have hshift := scanAux_shift rest (some c) 1 pos
      have harith : 1 + pos = pos + 1 := by omega
      rw [harith] at hshift
      rw [hshift, List.map_map]
      have hfun : ((fun q : Nat × String => (q.1 - pos, q.2)) ∘
          fun q : Nat × String => (q.1 + pos, q.2)) = id := by
        funext q
        simp
      rw [hfun, List.map_id]
    | none =>
      rw [scanAux_cons_none hm pos] at hscan
      have hp : pos + 1 ≤ p := by
        have : (p, h) ∈ scanAux (some c) (pos + 1) rest := by
          rw [hscan]; simp
        exact scanAux_pos_le this
      have hdrop : (c :: rest).drop (p - pos) = rest.drop (p - (pos + 1)) := by
        have harith : p - pos = (p - (pos + 1)) + 1 := by omega
        rw [harith, List.drop_succ_cons]
      rw [hdrop]
      exact ih (some c) (pos + 1) p h tl hscan

/-- Every match of a chain-well-formed list starts at or after the
chain's base position. -/
lemma chainFrom_le {ms : List (Nat × String)} :
    ∀ {pos : Nat}, chainFrom pos ms → ∀ q ∈ ms, pos ≤ q.1 := by
  induction ms with
  | nil => intro pos _ q hq; simp at hq
  | cons ph tl ih =>
    intro pos hc q hq
    obtain ⟨p, h⟩ := ph
    rcases List.mem_cons.mp hq with heq | htail
    · subst heq; exact hc.1
    · have := ih hc.2 q htail
      have h1 := hc.1
      omega

/-- The start position of the first header match (0 when there is no
match). -/
def firstStart (cs : List Char) : Nat :=
  match findMatches cs with
  | [] => 0
  | (p, _) :: _ => p

/-- Regions computed from a match list shifted down by `p` (over the
dropped text) are the offset regions of the original match list. -/
lemma sectionRegions_map_sub :
    ∀ (ms : List (Nat × String)) (cs' : List Char) (p : Nat),
      (∀ q ∈ ms, p ≤ q.1) →
      sectionRegions cs' (ms.map fun q => (q.1 - p, q.2)) = regionsFrom cs' p ms := by
  intro ms
  induction ms with
  | nil => intros; rfl
  | cons ph tl ih =>
    intro cs' p hle
    obtain ⟨q1, h⟩ := ph
    have hq1 : p ≤ q1 := hle (q1, h) (by simp)
    simp only [List.map_cons, sectionRegions, regionsFrom]
    refine congrArg₂ List.cons ?_ (ih cs' p fun q hq => hle q (by simp [hq]))
    have hstart : q1 - p + h.data.length = q1 + h.data.length - p := by omega
    rw [hstart]
    cases tl with
    | nil =>
      have hstop : p + cs'.length - p = cs'.length := by omega
      simp only [List.map_nil, headStop, hstop]
    | cons q' tl' =>
      obtain ⟨q2, h2⟩ := q'
      simp only [List.map_cons, headStop]

/-- The keys of the region list are the matched headers. -/
lemma sectionRegions_keys (cs : List Char) :
    ∀ ms : List (Nat × String),
      (sectionRegions cs ms).map Prod.fst = ms.map Prod.snd := by
  intro ms
  induction ms with
  | nil => rfl
  | cons ph tl ih =>
    obtain ⟨p, h⟩ := ph
    simp only [sectionRegions, List.map_cons, ih]

/-- Inserting a fresh key appends it. -/
lemma dictInsert_fresh {α : Type} :
    ∀ (m : List (String × α)) (k : String) (v : α),
      (∀ p ∈ m, p.1 ≠ k) → dictInsert m k v = m ++ [(k, v)] := by
  intro m
  induction m with
  | nil => intros; rfl
  | cons p ps ih =>
    intro k v hfresh
    obtain ⟨k', v'⟩ := p
    have hne : k' ≠ k := hfresh (k', v') (by simp)
    simp only [dictInsert, if_neg hne, List.cons_append]
    rw [ih k v fun q hq => hfresh q (by simp [hq])]

/-- Folding dict insertions over pairs with pairwise-distinct fresh keys
just appends the pairs. -/
lemma foldl_dictInsert_nodup {α : Type} :
    ∀ (pairs acc : List (String × α)),
      ((acc ++ pairs).map Prod.fst).Nodup →
      pairs.foldl (fun m p => dictInsert m p.1 p.2) acc = acc ++ pairs := by
  intro pairs
  induction pairs with
  | nil => intro acc _; simp
  | cons p ps ih =>
    intro acc hnd
    obtain ⟨k, v⟩ := p
    have hfresh : ∀ q ∈ acc, q.1 ≠ k := by
      intro q hq
      have hk : k ∈ ((acc ++ (k, v) :: ps).map Prod.fst) := by simp
      intro heq
      rw [List.map_append] at hnd
      have hqk : k ∈ acc.map Prod.fst := by
        rw [← heq]
        exact List.mem_map_of_mem Prod.fst hq
      have := (List.nodup_append.mp hnd).2.2
      exact this hqk (by simp)
    have hstep : dictInsert acc k v = acc ++ [(k, v)] := dictInsert_fresh acc k v hfresh
    simp only [List.foldl_cons, hstep]
    rw [ih (acc ++ [(k, v)]) (by simpa using hnd)]
    simp

/-- `crysl_to_json_lines` as a fold over the cleaned region list. -/
lemma cryslToJsonLines_eq_foldl (cs : List Char) :
    cryslToJsonLines cs =
      ((sectionRegions cs (findMatches cs)).map fun hr => (hr.1, cleanLines hr.2)).foldl
        (fun m p => dictInsert m p.1 p.2) [] := by
  unfold cryslToJsonLines
  rw [List.foldl_map]

/-- The concatenation of all raw section regions, in document order. -/
def regionsConcat (cs : List Char) : List Char :=
  ((sectionRegions cs (findMatches cs)).map Prod.snd).flatten

/-- The original text with the matched header tokens deleted: the text
before the first match followed by all raw regions (see
`c8_regions_tile_text` for the justification that this is exactly the
text minus the header tokens). -/
def stripHeaderTokens (cs : List Char) : List Char :=
  cs.take (firstStart cs) ++ regionsConcat cs

/-- **C2.** For every well-formed rule text (one in which no recognized
header token is matched twice), `crysl_to_json_lines` returns a mapping
whose keys are exactly the matched headers, in order, each mapped to the
non-empty individually trimmed lines of the region strictly between the
end of that header token and the start of the next match (or the end of
the text). -/
theorem c2_parse_sections_of_wellformed (cs : List Char)
    (hnd : ((findMatches cs).map Prod.snd).Nodup) :
    cryslToJsonLines cs =
      ((sectionRegions cs (findMatches cs)).map fun hr => (hr.1, cleanLines hr.2)) ∧
    (cryslToJsonLines cs).map Prod.fst = (findMatches cs).map Prod.snd := by
  have hkeys : (((sectionRegions cs (findMatches cs)).map
      fun hr => (hr.1, cleanLines hr.2)).map Prod.fst).Nodup := by
    have : ((sectionRegions cs (findMatches cs)).map
        fun hr => (hr.1, cleanLines hr.2)).map Prod.fst =
        (sectionRegions cs (findMatches cs)).map Prod.fst := by
      rw [List.map_map]
      rfl
    rw [this, sectionRegions_keys]
    exact hnd
  have hfold := foldl_dictInsert_nodup
    ((sectionRegions cs (findMatches cs)).map fun hr => (hr.1, cleanLines hr.2)) []
    (by simpa using hkeys)
  have heq : cryslToJsonLines cs =
      (sectionRegions cs (findMatches cs)).map fun hr => (hr.1, cleanLines hr.2) := by
    rw [cryslToJsonLines_eq_foldl, hfold]
    simp
  refine ⟨heq, ?_⟩
  rw [heq, List.map_map]
  have : (Prod.fst ∘ fun hr : String × List Char => (hr.1, cleanLines hr.2)) = Prod.fst := rfl
  rw [this, sectionRegions_keys]

/-- The concrete scenario text of the spec. -/
def scenarioText : String := "OBJECTS\nKey k\nEVENTS\ngenerateKey()\nORDER\ngenerateKey\n"

/-- **C2, witness.** The scenario text is well-formed, and by the main
theorem it parses to exactly the three sections of the claim. -/
theorem c2_parse_sections_witness :
    ((findMatches scenarioText.data).map Prod.snd).Nodup ∧
    cryslToJsonLines scenarioText.data =
      [("OBJECTS", ["Key k"]), ("EVENTS", ["generateKey()"]), ("ORDER", ["generateKey"])] :=
  ⟨by decide,
    ((c2_parse_sections_of_wellformed scenarioText.data (by decide)).1).trans (by decide)⟩

/-- **C8 (amended).** For every input text the section regions are
contiguous and non-overlapping (the match list is a chain: each header
match starts at or after the end of the previous one), and the text
before the first header, followed by each header token and its region in
document order, reconstructs the original text exactly.  The
amendment: the claim as stated also asserts that the *regions alone*
reconstruct the text modulo header tokens and whitespace, which fails
because non-whitespace content before the first recognized header is
discarded (see the counterexample `c8_regions_counterexample`). -/
theorem c8_regions_tile_text (cs : List Char) :
    chainFrom 0 (findMatches cs) ∧
    rebuildChain cs 0 (findMatches cs) = some cs ∧
    cs.take (headStop 0 cs (findMatches cs)) ++
      ((sectionRegions cs (findMatches cs)).map fun hr => hr.1.data ++ hr.2).flatten = cs := by
  refine ⟨chainFrom_scanAux cs.length cs (le_refl _) none 0,
    rebuildChain_scanAux cs.length cs (le_refl _) none 0, ?_⟩
  have hglue := glueFrom_scanAux cs.length cs (le_refl _) none 0
  unfold glueFrom at hglue
  rw [regionsFrom_zero, Nat.sub_zero] at hglue
  exact hglue

/-- **C8, counterexample.** The claim as stated (for every input text,
concatenating all regions in document order reconstructs the original
text modulo the header tokens and pure whitespace): at the input
`"junk SPEC x"` the regions concatenate to `" x"` while the text minus
its header tokens is `"junk  x"` — the non-whitespace content `junk`
before the first header is lost, so the two differ even after deleting
all whitespace. -/
theorem c8_regions_counterexample :
    ¬ ((regionsConcat "junk SPEC x".data).filter (fun c => !pyIsSpace c) =
       (stripHeaderTokens "junk SPEC x".data).filter (fun c => !pyIsSpace c)) := by
  decide

/-- **C10.** Any content before the first recognized header token is
silently discarded by `crysl_to_json_lines`: the parse of a text equals
the parse of the text with everything before the first header match
removed, so that content can appear in no section of the returned
mapping. -/
theorem c10_prefix_before_first_header_discarded (cs : List Char) :
    cryslToJsonLines cs = cryslToJsonLines (cs.drop (firstStart cs)) := by
  have hfs : firstStart cs = match findMatches cs with
      | [] => 0
      | (p, _) :: _ => p := rfl
  cases hms : findMatches cs with
  | nil =>
    rw [hfs, hms, List.drop_zero]
  | cons q tl =>
    obtain ⟨p, h⟩ := q
    rw [hfs, hms]
    have hms' : scanAux none 0 cs = (p, h) :: tl := hms
    have hdropscan : findMatches (cs.drop p) = ((p, h) :: tl).map fun q => (q.1 - p, q.2) := by
      have := scanAux_drop_first cs none 0 p h tl hms'
      rw [Nat.sub_zero] at this
      exact this
    have hchain : chainFrom 0 ((p, h) :: tl) := by
      have := chainFrom_scanAux cs.length cs (le_refl _) none 0
      rw [hms'] at this
      exact this
    have hple : ∀ q ∈ (p, h) :: tl, p ≤ q.1 := by
      intro q hq
      rcases List.mem_cons.mp hq with heq | htail
      · subst heq; exact le_refl _
      · have h2 := chainFrom_le hchain.2 q htail
        omega
    have hplen : p ≤ cs.length := by
      have hmem : (p, h) ∈ scanAux none 0 cs := by rw [hms']; simp
      have := scanAux_pos_lt hmem
      omega
    have hregions : sectionRegions (cs.drop p) (((p, h) :: tl).map fun q => (q.1 - p, q.2)) =
        sectionRegions cs ((p, h) :: tl) := by
      rw [sectionRegions_map_sub ((p, h) :: tl) (cs.drop p) p hple, ← regionsFrom_zero cs,
        regionsFrom_drop_shift ((p, h) :: tl) cs 0 p hplen (by simpa using hple)]
      norm_num
    unfold cryslToJsonLines
    rw [hms, hdropscan, hregions]

/-! ## JSON values and the sanitized-rule store

The sanitized rule records read by `src/llm/llm_writer.py` are JSON
objects loaded with `json.load`.  A record is modelled as a string-keyed
association list (`RuleRec`); field values as the JSON value type `J`
(nested objects do not occur in the fields the resolvers read and are
not represented). -/

/-- A JSON value as loaded by `json.load`, as far as the dependency
resolvers consume it. -/
inductive J where
  | null
  | bool (b : Bool)
  | num (n : Int)
  | str (s : String)
  | arr (xs : List J)

mutual

/-- Python `==` on JSON values (structural equality). -/
def jeq : J → J → Bool
  | .null, .null => true
  | .bool a, .bool b => a == b
  | .num a, .num b => a == b
  | .str a, .str b => a == b
  | .arr as, .arr bs => jeqList as bs
  | _, _ => false

/-- Python `==` on JSON lists. -/
def jeqList : List J → List J → Bool
  | [], [] => true
  | a :: as, b :: bs => jeq a b && jeqList as bs
  | _, _ => false

end

/-- Python truthiness of a JSON value. -/
def jTruthy : J → Bool
  | .null => false
  | .bool b => b
  | .num n => n != 0
  | .str s => s != ""
  | .arr xs => !xs.isEmpty

mutual

/-- Python `repr` of a JSON value (string escaping is approximated by
plain quoting; no string compared through `repr` in this development
contains a quote). -/
def pyRepr : J → String
  | .null => "None"
  | .bool true => "True"
  | .bool false => "False"
  | .num n => toString n
  | .str s => "'" ++ s ++ "'"
  | .arr xs => "[" ++ String.intercalate ", " (pyReprList xs) ++ "]"

/-- `repr` of each element of a JSON list. -/
def pyReprList : List J → List String
  | [] => []
  | x :: xs => pyRepr x :: pyReprList xs

end

/-- Python `str` of a JSON value: `str` and `repr` agree except on
strings. -/
def pyStr : J → String
  | .str s => s
  | v => pyRepr v

/-- A sanitized-rule record: a JSON object. -/
def RuleRec : Type := List (String × J)

/-- Whether a record is empty (Python falsiness of a dict). -/
def RuleRec.isEmpty (r : RuleRec) : Bool :=
  List.isEmpty r

/-- Raw field lookup in a record. -/
def recGet (r : RuleRec) (k : String) : Option J :=
  (List.find? (fun p => p.1 == k) r).map Prod.snd

/-- Python `dict.get(key)`: `None` both when the key is missing and when
the stored JSON value is `null` (JSON `null` loads as Python `None`), so
both are collapsed to `none`. -/
def recGetPy (r : RuleRec) (k : String) : Option J :=
  match recGet r k with
  | none => none
  | some .null => none
  | some v => some v

/-- `record.get(key) or []`: the stored value when truthy, otherwise an
empty Python list. -/
def getOrEmptyList (r : RuleRec) (k : String) : J :=
  match recGetPy r k with
  | some v => if jTruthy v then v else J.arr []
  | none => J.arr []

/-- Python `for x in value`: iterating a list yields its elements, and
iterating a string yields its characters as one-character strings; any
other value here (`int`, `bool`, `None`) raises `TypeError`, modelled as
`none`. -/
def jIter : J → Option (List J)
  | .arr xs => some xs
  | .str s => some (s.data.map fun c => J.str (String.mk [c]))
  | _ => none

/-- Whether Python would refuse to hash the value (only lists among the
represented values are unhashable). -/
def isUnhashable : J → Bool
  | .arr _ => true
  | _ => false

/-- `clean_item` of `src/llm/llm_writer.py`: non-strings are rendered
with `str`; strings are stripped, and a leading comma (with all the
commas following it) is removed, stripping again. -/
def cleanItem : J → String
  | .str s =>
    let s2 := pyStripStr s
    if s2.data.head? = some ',' then
      pyStripStr (String.mk (s2.data.dropWhile fun c => c = ','))
    else s2
  | v => pyStr v

/-- `_normalize_listish` of `src/llm/llm_writer.py`. -/
def normalizeListish : Option J → List String
  | none => []
  | some .null => []
  | some (.arr xs) => (xs.filter fun v => pyStripStr (pyStr v) ≠ "").map cleanItem
  | some (.str s) => let v := pyStripStr s; if v = "" then [] else [v]
  | some v => [cleanItem v]

/-- The sanitized-rule store for a fixed language:
`load_json(rule_path(fqcn, language))`, with `none` when the file is
missing or unreadable (`load_json` logs a warning and returns `None`). -/
def Store : Type := String → Option RuleRec

/-! ## The dependency-ensures resolver

Embeds `collect_dependency_ensures` of `src/llm/llm_writer.py`
(lines 98–135).  The nested Python function `visit(fqcn, cur_depth)`
recurses only while `cur_depth < depth`; it is represented with the fuel
`depth - cur_depth`, so the top-level calls `visit(dep, 1)` run with
fuel `depth - 1` and recursion happens exactly while the fuel is
positive. -/

/-- The mutable state of `collect_dependency_ensures`: the `seen` set,
`deps_order`, and `dep_to_ensures`. -/
structure DepState where
  seen : List String
  order : List String
  emap : List (String × List String)

/-- Visit each class of a list in order with a fixed visitor. -/
def visitListWith (f : String → DepState → DepState) :
    List String → DepState → DepState
  | [], st => st
  | x :: xs, st => visitListWith f xs (f x st)

/-- The body of `visit(fqcn, cur_depth)`: skip if seen; record in
`seen` and `deps_order`; a missing or falsy record maps to `[]`;
otherwise store the normalized `ensures` list and, when the depth bound
allows another level (`recurse` is the visitor for the next level),
visit the normalized `dependency` list. -/
def visitCore (store : Store) (recurse : Option (String → DepState → DepState))
    (fqcn : String) (st : DepState) : DepState :=
  if fqcn ∈ st.seen then st
  else
    let st1 : DepState :=
      { st with
        seen := fqcn :: st.seen
        order := if fqcn ∈ st.order then st.order else st.order ++ [fqcn] }
    match store fqcn with
    | none => { st1 with emap := dictInsert st1.emap fqcn [] }
    | some data =>
      if data.isEmpty then { st1 with emap := dictInsert st1.emap fqcn [] }
      else
        let ens := normalizeListish (recGetPy data "ensures")
        let st2 : DepState := { st1 with emap := dictInsert st1.emap fqcn ens }
        match recurse with
        | none => st2
        | some f => visitListWith f (normalizeListish (recGetPy data "dependency")) st2

/-- `visit` at a given fuel (`fuel = depth - cur_depth`): with fuel 0 the
bound `cur_depth < depth` fails and there is no recursion. -/
def visit (store : Store) : Nat → String → DepState → DepState
  | 0 => visitCore store none
  | fuel + 1 => visitCore store (some (visit store fuel))

/-- `collect_dependency_ensures(primary_fqcn, language, depth)` of
`src/llm/llm_writer.py`.  Returns `none` when the Python code would
raise `TypeError` (the primary record's `dependency` field is a truthy
non-iterable).  Otherwise `(deps_order, dep_to_ensures)`. -/
def collectDependencyEnsures (store : Store) (primaryFqcn : String) (depth : Nat) :
    Option (List String × List (String × List String)) :=
  match store primaryFqcn with
  | none => some ([], [])
  | some primary =>
    if primary.isEmpty then some ([], [])
    else
      match jIter (getOrEmptyList primary "dependency") with
      | none => none
      | some roots =>
        let final := roots.foldl
          (fun st dep =>
            match dep with
            | J.str d => if d ≠ "" then visit store (depth - 1) d st else st
            | _ => st)
          { seen := [primaryFqcn], order := [], emap := [] }
        some (final.order, final.emap)

/-- The invariant of the traversal: the primary class is in the seen
set and absent from the order list. -/
def seenNotOrdered (a : String) (st : DepState) : Prop :=
  a ∈ st.seen ∧ a ∉ st.order

lemma visitCore_inv {store : Store} {recurse : Option (String → DepState → DepState)}
    {a : String}
    (hrec : ∀ f, recurse = some f →
      ∀ x st, seenNotOrdered a st → seenNotOrdered a (f x st)) :
    ∀ fqcn st, seenNotOrdered a st → seenNotOrdered a (visitCore store recurse fqcn st) := by
  intro fqcn st hst
  unfold visitCore
  by_cases hseen : fqcn ∈ st.seen
  · rw [if_pos hseen]
    exact hst
  · rw [if_neg hseen]
    have hne : fqcn ≠ a := fun heq => hseen (heq ▸ hst.1)
    have hst1 : seenNotOrdered a
        { st with
          seen := fqcn :: st.seen
          order := if fqcn ∈ st.order then st.order else st.order ++ [fqcn] } := by
      refine ⟨List.mem_cons_of_mem _ hst.1, ?_⟩
      by_cases hmem : fqcn ∈ st.order
      · rw [if_pos hmem]
        exact hst.2
      · rw [if_neg hmem]
        intro hm
        rcases List.mem_append.mp hm with hm1 | hm2
        · exact hst.2 hm1
        · simp at hm2
          exact hne hm2.symm
    cases hsf : store fqcn with
    | none =>
      dsimp only
      exact ⟨hst1.1, hst1.2⟩
    | some data =>
      dsimp only
      by_cases hde : data.isEmpty
      · rw [if_pos hde]
        exact ⟨hst1.1, hst1.2⟩
      · rw [if_neg hde]
        cases hr : recurse with
        | none =>
          dsimp only
          exact ⟨hst1.1, hst1.2⟩
        | some f =>
          dsimp only
          have hf := hrec f hr
          have hlist : ∀ xs st', seenNotOrdered a st' →
              seenNotOrdered a (visitListWith f xs st') := by
            intro xs
            induction xs with
            | nil => intro st' h'; exact h'
            | cons x xs ihx =>
              intro st' h'
              exact ihx _ (hf x st' h')
          exact hlist _ _ ⟨hst1.1, hst1.2⟩

/-- `visit` preserves the invariant at every fuel. -/
lemma visit_inv {store : Store} {a : String} :
    ∀ (fuel : Nat) (fqcn : String) (st : DepState),
      seenNotOrdered a st → seenNotOrdered a (visit store fuel fqcn st) := by
  intro fuel
  induction fuel with
  | zero =>
    intro fqcn st hst
    exact visitCore_inv (by intro f hf; cases hf) fqcn st hst
  | succ fuel ih =>
    intro fqcn st hst
    refine visitCore_inv ?_ fqcn st hst
    intro f hf
    cases hf
    exact fun x st' h' => ih x st' h'

/-- **C1.** For every store (dependency graph) whose target record's
`dependency` field is iterable — in particular for every graph with a
dependency cycle through the target — `collect_dependency_ensures`
returns normally (it terminates without raising, for any depth), and the
target class itself never appears in the returned order: the `seen` set
is seeded with the target, so the traversal never visits it. -/
theorem c1_ensures_cycle_safe (store : Store) (a : String) (depth : Nat)
    (hdep : ∀ primary, store a = some primary → ¬ primary.isEmpty = true →
      (jIter (getOrEmptyList primary "dependency")).isSome) :
    ∃ result, collectDependencyEnsures store a depth = some result ∧ a ∉ result.1 := by
  unfold collectDependencyEnsures
  cases ha : store a with
  | none => exact ⟨([], []), rfl, by simp⟩
  | some primary =>
    dsimp only
    by_cases hemp : primary.isEmpty
    · rw [if_pos hemp]
      exact ⟨([], []), rfl, by simp⟩
    · rw [if_neg hemp]
      have hsome := hdep primary ha hemp
      cases hroots : jIter (getOrEmptyList primary "dependency") with
      | none => rw [hroots] at hsome; simp at hsome
      | some roots =>
        dsimp only
        refine ⟨_, rfl, ?_⟩
        have hinv : ∀ (rs : List J) (st : DepState), seenNotOrdered a st →
            seenNotOrdered a (rs.foldl
              (fun st dep =>
                match dep with
                | J.str d => if d ≠ "" then visit store (depth - 1) d st else st
                | _ => st) st) := by
          intro rs
          induction rs with
          | nil => intro st h; exact h
          | cons dep rs ihr =>
            intro st h
            rw [List.foldl_cons]
            refine ihr _ ?_
            cases dep with
            | str d =>
              dsimp only
              by_cases hd : d ≠ ""
              · rw [if_pos hd]
                exact visit_inv (depth - 1) d st h
              · rw [if_neg hd]
                exact h
            | null => exact h
            | bool b => exact h
            | num n => exact h
            | arr xs => exact h
        have := hinv roots { seen := [a], order := [], emap := [] } ⟨by simp, by simp⟩
        exact this.2

/-- A two-class store with a dependency cycle: `A` depends on `B` and
`B` depends back on `A`. -/
def cycStore : Store := fun f =>
  if f = "A" then some [("dependency", J.arr [J.str "B"]), ("ensures", J.arr [J.str "eA"])]
  else if f = "B" then some [("dependency", J.arr [J.str "A"]), ("ensures", J.arr [J.str "eB"])]
  else none

/-- **C1, witness.** On the concrete cyclic graph A→B→A, the resolver
at depth 1 returns (by the main theorem, with its hypothesis discharged)
an order avoiding `A`; concretely the call evaluates to
`(["B"], {B ↦ ["eB"]})`. -/
theorem c1_ensures_cycle_safe_witness :
    (∃ result, collectDependencyEnsures cycStore "A" 1 = some result ∧ "A" ∉ result.1) ∧
    collectDependencyEnsures cycStore "A" 1 = some (["B"], [("B", ["eB"])]) := by
  constructor
  · refine c1_ensures_cycle_safe cycStore "A" 1 ?_
    intro primary hp hne
    have hcyc : cycStore "A" = some [("dependency", J.arr [J.str "B"]),
        ("ensures", J.arr [J.str "eA"])] := rfl
    rw [hcyc] at hp
    have : primary = [("dependency", J.arr [J.str "B"]), ("ensures", J.arr [J.str "eA"])] :=
      (Option.some.inj hp).symm
    subst this
    decide
  · decide

/-! ## The dependency-constraints resolver

Embeds `collect_dependency_constraints` of `src/llm/llm_writer.py`
(lines 41–73).  The loop iterates over the raw JSON values of the
target's `dependency` list; `deps_order` and the keys of
`dep_to_constraints` therefore hold JSON values (class-name strings in
every well-formed store). -/

/-- The constraints extraction of the loop body: `get("constraints")`,
falling back to `get("constraint")` when that is `None`, then `[]`, then
wrapping a non-list into a one-element list, then `clean_item` on each
element. -/
def extractConstraints (data : RuleRec) : List String :=
  let c0 := recGetPy data "constraints"
  let c1 := match c0 with
    | none => recGetPy data "constraint"
    | some v => some v
  let cl := match c1 with
    | none => []
    | some (J.arr xs) => xs
    | some v => [v]
  cl.map cleanItem

/-- Python dict assignment with JSON-value keys. -/
def dictInsertJ (m : List (J × List String)) (k : J) (v : List String) :
    List (J × List String) :=
  match m with
  | [] => [(k, v)]
  | (k', v') :: rest =>
    if jeq k' k then (k, v) :: rest else (k', v') :: dictInsertJ rest k v

/-- Python dict lookup with JSON-value keys. -/
def dictLookupJ (m : List (J × List String)) (k : J) : Option (List String) :=
  (m.find? fun p => jeq p.1 k).map Prod.snd

/-- The loop of `collect_dependency_constraints` over the dependency
list, carrying `(seen, deps_order, dep_to_constraints)`.  `none` models
the `TypeError` Python raises when an unhashable dependency value (a
list) reaches the `dep in seen` set-membership test. -/
def depsLoop (store : Store) (target : String) :
    List J → List J → List J → List (J × List String) →
      Option (List J × List (J × List String))
  | [], _, order, cmap => some (order, cmap)
  | dep :: rest, seen, order, cmap =>
    if jeq dep (J.str target) then depsLoop store target rest seen order cmap
    else if isUnhashable dep then none
    else if seen.any (fun s => jeq dep s) then depsLoop store target rest seen order cmap
    else
      let seen' := dep :: seen
      let order' := order ++ [dep]
      match store (pyStr dep) with
      | none => depsLoop store target rest seen' order' (dictInsertJ cmap dep [])
      | some dj =>
        if dj.isEmpty then
          depsLoop store target rest seen' order' (dictInsertJ cmap dep [])
        else
          depsLoop store target rest seen' order' (dictInsertJ cmap dep (extractConstraints dj))

/-- `collect_dependency_constraints(target_fqcn, language)` of
`src/llm/llm_writer.py`: load the target's record (absent or falsy →
empty results), then walk its `dependency` list, skipping the target
itself and already-seen values, recording each dependency in first-seen
order and mapping it to its cleaned constraints (absent or falsy
dependency records map to `[]`). -/
def collectDependencyConstraints (store : Store) (target : String) :
    Option (List J × List (J × List String)) :=
  match store target with
  | none => some ([], [])
  | some primary =>
    if primary.isEmpty then some ([], [])
    else
      match jIter (getOrEmptyList primary "dependency") with
      | none => none
      | some deps => depsLoop store target deps [] [] []

lemma jeq_str_right {v : J} {s : String} : jeq v (J.str s) = true ↔ v = J.str s := by
  cases v with
  | null => simp [show jeq J.null (J.str s) = false from rfl]
  | bool b => simp [show jeq (J.bool b) (J.str s) = false from rfl]
  | num n => simp [show jeq (J.num n) (J.str s) = false from rfl]
  | str a =>
    rw [show jeq (J.str a) (J.str s) = (a == s) from rfl]
    simp [beq_iff_eq, J.str.injEq]
  | arr xs => simp [show jeq (J.arr xs) (J.str s) = false from rfl]

lemma jeq_str_left {v : J} {s : String} : jeq (J.str s) v = true ↔ v = J.str s := by
  cases v with
  | null => simp [show jeq (J.str s) J.null = false from rfl]
  | bool b => simp [show jeq (J.str s) (J.bool b) = false from rfl]
  | num n => simp [show jeq (J.str s) (J.num n) = false from rfl]
  | str a =>
    rw [show jeq (J.str s) (J.str a) = (s == a) from rfl]
    constructor
    · intro h
      have hsa : s = a := by simpa using h
      rw [hsa]
    · intro h
      injection h with h1
      rw [h1]
      simp
  | arr xs => simp [show jeq (J.str s) (J.arr xs) = false from rfl]

lemma jeq_str_refl (s : String) : jeq (J.str s) (J.str s) = true := by
  rw [show jeq (J.str s) (J.str s) = (s == s) from rfl]
  simp

lemma dictLookupJ_insert_self (m : List (J × List String)) (s : String)
    (v : List String) :
    dictLookupJ (dictInsertJ m (J.str s) v) (J.str s) = some v := by
  induction m with
  | nil => simp [dictInsertJ, dictLookupJ, List.find?, jeq_str_refl]
  | cons e rest ih =>
    obtain ⟨k', v'⟩ := e
    by_cases hk : jeq k' (J.str s) = true
    · simp [dictInsertJ, hk, dictLookupJ, List.find?, jeq_str_refl]
    · simp only [dictInsertJ, Bool.not_eq_true] at hk ⊢
      rw [hk]
      simp only [Bool.false_eq_true, if_false, dictLookupJ, List.find?, hk]
      exact ih

lemma dictLookupJ_insert_ne (m : List (J × List String)) (dep : J)
    (v : List String) (s : String) (hne : jeq dep (J.str s) = false) :
    dictLookupJ (dictInsertJ m dep v) (J.str s) = dictLookupJ m (J.str s) := by
  induction m with
  | nil => simp [dictInsertJ, dictLookupJ, List.find?, hne]
  | cons e rest ih =>
    obtain ⟨k', v'⟩ := e
    by_cases hk : jeq k' dep = true
    · have hk's : jeq k' (J.str s) = false := by
        by_contra hc
        rw [Bool.not_eq_false] at hc
        have hk1 : k' = J.str s := jeq_str_right.mp hc
        rw [hk1] at hk
        have : dep = J.str s := jeq_str_left.mp hk
        rw [this, jeq_str_refl] at hne
        cases hne
      simp [dictInsertJ, hk, dictLookupJ, List.find?, hne, hk's]
    · rw [Bool.not_eq_true] at hk
      simp only [dictInsertJ, hk, Bool.false_eq_true, if_false]
      by_cases hk's : jeq k' (J.str s) = true
      · simp [dictLookupJ, List.find?, hk's]
      · rw [Bool.not_eq_true] at hk's
        simp only [dictLookupJ, List.find?, hk's]
        exact ih

/-- What holds for the missing dependency once its loop iteration has
run: it is in `seen`, in `deps_order`, and mapped to `[]`. -/
def c3Done (d : String) (seen order : List J) (cmap : List (J × List String)) : Prop :=
  J.str d ∈ seen ∧ J.str d ∈ order ∧ dictLookupJ cmap (J.str d) = some []

/-- The one-step equation of the dependency loop. -/
lemma depsLoop_cons (store : Store) (target : String) (dep : J) (rest seen order : List J)
    (cmap : List (J × List String)) :
    depsLoop store target (dep :: rest) seen order cmap =
      if jeq dep (J.str target) = true then
        depsLoop store target rest seen order cmap
      else if isUnhashable dep = true then none
      else if (seen.any fun s => jeq dep s) = true then
        depsLoop store target rest seen order cmap
      else
        match store (pyStr dep) with
        | none => depsLoop store target rest (dep :: seen) (order ++ [dep])
            (dictInsertJ cmap dep [])
        | some dj =>
          if dj.isEmpty = true then
            depsLoop store target rest (dep :: seen) (order ++ [dep])
              (dictInsertJ cmap dep [])
          else
            depsLoop store target rest (dep :: seen) (order ++ [dep])
              (dictInsertJ cmap dep (extractConstraints dj)) := by
  conv_lhs => unfold depsLoop

/-- Once the missing dependency's iteration is done, the rest of the
loop keeps it in the order and keeps its empty constraint list (later
values equal to it are skipped via `seen`; other keys cannot overwrite
its map entry). -/
lemma depsLoop_preserves (store : Store) (target d : String) :
    ∀ (rest seen order : List J) (cmap : List (J × List String)),
      (∀ x ∈ rest, isUnhashable x = false) →
      c3Done d seen order cmap →
      ∃ o m, depsLoop store target rest seen order cmap = some (o, m) ∧
        J.str d ∈ o ∧ dictLookupJ m (J.str d) = some [] := by
  intro rest
  induction rest with
  | nil =>
    intro seen order cmap _ hdone
    exact ⟨order, cmap, rfl, hdone.2.1, hdone.2.2⟩
  | cons dep rest ih =>
    intro seen order cmap hh hdone
    have hhrest : ∀ x ∈ rest, isUnhashable x = false := fun x hx => hh x (by simp [hx])
    rw [depsLoop_cons]
    by_cases h1 : jeq dep (J.str target) = true
    · rw [if_pos h1]
      exact ih seen order cmap hhrest hdone
    · rw [if_neg h1]
      have hhd : isUnhashable dep = false := hh dep (by simp)
      rw [if_neg (by simp [hhd])]
      by_cases h3 : (seen.any fun s => jeq dep s) = true
      · rw [if_pos h3]
        exact ih seen order cmap hhrest hdone
      · rw [if_neg h3]
        rw [Bool.not_eq_true] at h3
        have hdne : jeq dep (J.str d) = false := by
          by_contra hc
          rw [Bool.not_eq_false] at hc
          have hdep : dep = J.str d := jeq_str_right.mp hc
          have hany : (seen.any fun s => jeq dep s) = true := by
            rw [List.any_eq_true]
            exact ⟨J.str d, hdone.1, by rw [hdep]; exact jeq_str_refl d⟩
          rw [h3] at hany
          cases hany
        have hdone' : ∀ v, c3Done d (dep :: seen) (order ++ [dep])
            (dictInsertJ cmap dep v) := by
          intro v
          refine ⟨List.mem_cons_of_mem _ hdone.1,
            List.mem_append.mpr (Or.inl hdone.2.1), ?_⟩
          rw [dictLookupJ_insert_ne cmap dep v d hdne]
          exact hdone.2.2
        cases hsd : store (pyStr dep) with
        | none =>
          dsimp only
          exact ih _ _ _ hhrest (hdone' [])
        | some dj =>
          dsimp only
          by_cases hde : dj.isEmpty = true
          · rw [if_pos hde]
            exact ih _ _ _ hhrest (hdone' [])
          · rw [if_neg hde]
            exact ih _ _ _ hhrest (hdone' (extractConstraints dj))

/-- If the missing dependency is listed and not yet seen, its iteration
eventually runs and establishes `c3Done`. -/
lemma depsLoop_reaches (store : Store) (target d : String)
    (hD : store d = none) (hne : d ≠ target) :
    ∀ (rest seen order : List J) (cmap : List (J × List String)),
      (∀ x ∈ rest, isUnhashable x = false) →
      J.str d ∈ rest → J.str d ∉ seen →
      ∃ o m, depsLoop store target rest seen order cmap = some (o, m) ∧
        J.str d ∈ o ∧ dictLookupJ m (J.str d) = some [] := by
  intro rest
  induction rest with
  | nil =>
    intro seen order cmap _ hmem _
    simp at hmem
  | cons dep rest ih =>
    intro seen order cmap hh hmem hseen
    have hhrest : ∀ x ∈ rest, isUnhashable x = false := fun x hx => hh x (by simp [hx])
    rw [depsLoop_cons]
    by_cases hdep : dep = J.str d
    · subst hdep
      have h1 : jeq (J.str d) (J.str target) = false := by
        by_contra hc
        rw [Bool.not_eq_false] at hc
        have := jeq_str_left.mp hc
        injection this with h2
        exact hne h2.symm
      rw [if_neg (by simp [h1]), if_neg (by simp [isUnhashable])]
      have h3 : (seen.any fun s => jeq (J.str d) s) = false := by
        rw [Bool.eq_false_iff]
        intro hc
        rw [List.any_eq_true] at hc
        obtain ⟨x, hx, hjx⟩ := hc
        rw [jeq_str_left.mp hjx] at hx
        exact hseen hx
      rw [if_neg (by simp [h3])]
      have hpy : pyStr (J.str d) = d := rfl
      rw [hpy, hD]
      dsimp only
      refine depsLoop_preserves store target d rest _ _ _ hhrest ?_
      exact ⟨by simp, List.mem_append.mpr (Or.inr (by simp)),
        dictLookupJ_insert_self cmap d []⟩
    · have hmem' : J.str d ∈ rest := by
        rcases List.mem_cons.mp hmem with heq | htail
        · exact absurd heq.symm hdep
        · exact htail
      by_cases h1 : jeq dep (J.str target) = true
      · rw [if_pos h1]
        exact ih seen order cmap hhrest hmem' hseen
      · rw [if_neg h1]
        have hhd : isUnhashable dep = false := hh dep (by simp)
        rw [if_neg (by simp [hhd])]
        by_cases h3 : (seen.any fun s => jeq dep s) = true
        · rw [if_pos h3]
          exact ih seen order cmap hhrest hmem' hseen
        · rw [if_neg h3]
          have hseen' : J.str d ∉ dep :: seen := by
            intro hc
            rcases List.mem_cons.mp hc with heq | htail
            · exact hdep heq.symm
            · exact hseen htail
          cases hsd : store (pyStr dep) with
          | none =>
            dsimp only
            exact ih _ _ _ hhrest hmem' hseen'
          | some dj =>
            dsimp only
            by_cases hde : dj.isEmpty = true
            · rw [if_pos hde]
              exact ih _ _ _ hhrest hmem' hseen'
            · rw [if_neg hde]
              exact ih _ _ _ hhrest hmem' hseen'

/-- **C3.** For every dependency `D` listed (as a string, among hashable
dependency values) on a target `T` whose own record is present, if `D`'s
record is missing or unreadable from the store (`load_json` returns
`None`), `collect_dependency_constraints(T)` still returns normally, `D`
appears in the returned order, and `D` is mapped to an empty constraint
list — the missing file is treated as absence, not an exception. -/
theorem c3_missing_dep_empty_constraints (store : Store) (t d : String)
    (rec : RuleRec) (ds : List J)
    (hT : store t = some rec)
    (hdep : recGetPy rec "dependency" = some (J.arr ds))
    (hmem : J.str d ∈ ds)
    (hhash : ∀ x ∈ ds, isUnhashable x = false)
    (hD : store d = none) :
    ∃ o m, collectDependencyConstraints store t = some (o, m) ∧
      J.str d ∈ o ∧ dictLookupJ m (J.str d) = some [] := by
  have hneq : d ≠ t := by
    intro h
    rw [h, hT] at hD
    cases hD
  have hrecne : ¬ rec.isEmpty = true := by
    intro h
    have hnil : rec = [] := by
      cases rec with
      | nil => rfl
      | cons e r => simp [RuleRec.isEmpty, List.isEmpty] at h
    rw [hnil] at hdep
    simp [recGetPy, recGet, List.find?] at hdep
  unfold collectDependencyConstraints
  rw [hT]
  dsimp only
  rw [if_neg hrecne]
  have hgol : getOrEmptyList rec "dependency" = J.arr ds := by
    unfold getOrEmptyList
    rw [hdep]
    dsimp only
    have htr : jTruthy (J.arr ds) = true := by
      cases ds with
      | nil => simp at hmem
      | cons x xs => simp [jTruthy, List.isEmpty]
    rw [htr]
    simp
  rw [hgol]
  dsimp only [jIter]
  exact depsLoop_reaches store t d hD hneq ds [] [] [] hhash hmem (by simp)

/-- A store whose target `T` lists the single dependency `D`, and `D`'s
record is missing. -/
def missingDepStore : Store := fun f =>
  if f = "T" then some [("dependency", J.arr [J.str "D"])] else none

/-- **C3, witness.** On the concrete store where `T` lists the missing
dependency `D`: the hypotheses hold, and by the main theorem the
resolver returns normally with `D` in the order mapped to `[]`;
concretely the call evaluates to `([D], {D ↦ []})`. -/
theorem c3_missing_dep_witness :
    (missingDepStore "T" = some [("dependency", J.arr [J.str "D"])] ∧
      missingDepStore "D" = none) ∧
    (∃ o m, collectDependencyConstraints missingDepStore "T" = some (o, m) ∧
      J.str "D" ∈ o ∧ dictLookupJ m (J.str "D") = some []) ∧
    collectDependencyConstraints missingDepStore "T" =
      some ([J.str "D"], [(J.str "D", [])]) := by
  refine ⟨⟨rfl, rfl⟩, ?_, rfl⟩
  exact c3_missing_dep_empty_constraints missingDepStore "T" "D" _ [J.str "D"]
    rfl rfl (by simp) (by intro x hx; simp at hx; rw [hx]; rfl) rfl

/-! ## The PDF chunker

Embeds `_chunk_text` of `src/llm/paper_index.py` (identical in
`src/llm/paper_index_ollama.py`): split on `"\n"`, strip each paragraph
and drop empties, greedily pack paragraphs into chunks within
`max_chars`, then prepend a trailing-overlap of the previous chunk to
each subsequent chunk, capped at `max_chars`. -/

/-- Python `s[-k:]` (the last `k` characters; for `k = 0` Python reads
`s[0:]`, the whole string — that case never arises with the default
overlap of 300). -/
def pyTakeLast (k : Nat) (l : List Char) : List Char :=
  if k = 0 then l else l.drop (l.length - k)

/-- `[p.strip() for p in text.split("\n") if p.strip()]`. -/
def cleanParas (text : List Char) : List (List Char) :=
  ((pySplitNl text).map pyStrip).filter fun p => p ≠ []

/-- One iteration of the packing loop, carrying `(chunks, buf)`. -/
def packStep (maxChars : Nat) (st : List (List Char) × List Char)
    (para : List Char) : List (List Char) × List Char :=
  if st.2.length + para.length + 1 ≤ maxChars then
    (st.1, pyStrip (st.2 ++ '\n' :: para))
  else if st.2 ≠ [] then (st.1 ++ [st.2], para)
  else (st.1, para)

/-- One iteration of the overlap-merging loop. -/
def mergeStep (maxChars overlap : Nat) (merged : List (List Char))
    (c : List Char) : List (List Char) :=
  if merged.isEmpty then [c]
  else
    let tail := pyTakeLast overlap (merged.getLastD [])
    merged ++ [(tail ++ '\n' :: c).take maxChars]

/-- `_chunk_text(text, max_chars, overlap)` of `src/llm/paper_index.py`. -/
def chunkText (text : List Char) (maxChars overlap : Nat) : List (List Char) :=
  let paragraphs := cleanParas text
  let packed := paragraphs.foldl (packStep maxChars) ([], [])
  let chunks := if packed.2 ≠ [] then packed.1 ++ [packed.2] else packed.1
  chunks.foldl (mergeStep maxChars overlap) []

/-- Join with newlines (the shape of a packed chunk). -/
def joinNL : List (List Char) → List Char
  | [] => []
  | [x] => x
  | x :: xs => x ++ '\n' :: joinNL xs

/-- The length of a newline-join. -/
def joinLen : List (List Char) → Nat
  | [] => 0
  | [x] => x.length
  | x :: xs => x.length + 1 + joinLen xs

/-- A list with no whitespace at either end (the shape of a stripped
non-empty paragraph, and of any newline-join of such paragraphs). -/
def noSpaceEnds (l : List Char) : Prop :=
  (∀ c, l.head? = some c → pyIsSpace c = false) ∧
  (∀ c, l.getLast? = some c → pyIsSpace c = false)

lemma pyStrip_as_rdropWhile (l : List Char) :
    pyStrip l = List.rdropWhile pyIsSpace (l.dropWhile pyIsSpace) := rfl

/-- Stripping does not lengthen a string. -/
lemma pyStrip_length_le (l : List Char) : (pyStrip l).length ≤ l.length := by
  rw [pyStrip_as_rdropWhile]
  calc (List.rdropWhile pyIsSpace (l.dropWhile pyIsSpace)).length
      ≤ (l.dropWhile pyIsSpace).length :=
        (List.rdropWhile_prefix _ _).length_le
    _ ≤ l.length := (List.dropWhile_suffix _).length_le

/-- The head of a `dropWhile` result fails the predicate. -/
lemma dropWhile_head_false {l : List Char} {a : Char} {t : List Char}
    (h : l.dropWhile pyIsSpace = a :: t) : pyIsSpace a = false := by
  by_contra hc
  rw [Bool.not_eq_false] at hc
  have hid : (l.dropWhile pyIsSpace).dropWhile pyIsSpace = l.dropWhile pyIsSpace :=
    List.dropWhile_idempotent pyIsSpace l
  rw [h, List.dropWhile_cons, if_pos hc] at hid
  have hlen := congrArg List.length hid
  simp only [List.length_cons] at hlen
  have hle : (t.dropWhile pyIsSpace).length ≤ t.length :=
    (List.dropWhile_suffix _).length_le
  omega

/-- A string whose two ends are not whitespace is unchanged by
stripping. -/
lemma pyStrip_eq_self (l : List Char) (h : noSpaceEnds l) : pyStrip l = l := by
  rw [pyStrip_as_rdropWhile]
  have h1 : l.dropWhile pyIsSpace = l := by
    rw [List.dropWhile_eq_self_iff]
    intro hl
    have hhead : l.head? = some (l.get ⟨0, hl⟩) := by
      cases l with
      | nil => simp at hl
      | cons a t => rfl
    have h0 := h.1 _ hhead
    simp only [h0]
    simp
  rw [h1, List.rdropWhile_eq_self_iff]
  intro hl
  have hlast : l.getLast? = some (l.getLast hl) := List.getLast?_eq_getLast l hl
  have h0 := h.2 _ hlast
  simp only [h0]
  simp

/-- The result of a strip has no whitespace at either end. -/
lemma noSpaceEnds_pyStrip (l : List Char) : noSpaceEnds (pyStrip l) := by
  constructor
  · intro c hc
    cases hs : pyStrip l with
    | nil => rw [hs] at hc; cases hc
    | cons a as =>
      rw [hs] at hc
      have hac : a = c := by simpa using hc
      obtain ⟨t, ht⟩ := List.rdropWhile_prefix pyIsSpace (l.dropWhile pyIsSpace)
      rw [← pyStrip_as_rdropWhile, hs] at ht
      have hdw : l.dropWhile pyIsSpace = a :: (as ++ t) := by
        rw [← ht]
        rfl
      have hfalse := dropWhile_head_false hdw
      rw [hac] at hfalse
      exact hfalse
  · intro c hc
    have hne : pyStrip l ≠ [] := by
      intro h0
      rw [h0] at hc
      cases hc
    have hne' : List.rdropWhile pyIsSpace (l.dropWhile pyIsSpace) ≠ [] := by
      rw [← pyStrip_as_rdropWhile]
      exact hne
    have hnot := List.rdropWhile_last_not pyIsSpace (l.dropWhile pyIsSpace) hne'
    have hsome : (List.rdropWhile pyIsSpace (l.dropWhile pyIsSpace)).getLast? = some c := by
      rw [← pyStrip_as_rdropWhile]
      exact hc
    have hgl := List.getLast?_eq_getLast
      (List.rdropWhile pyIsSpace (l.dropWhile pyIsSpace)) hne'
    rw [hsome] at hgl
    have hceq : (List.rdropWhile pyIsSpace (l.dropWhile pyIsSpace)).getLast hne' = c :=
      (Option.some.inj hgl).symm
    rw [hceq] at hnot
    simpa using hnot

/-- Gluing two clean non-empty pieces with a newline keeps both ends
clean. -/
lemma noSpaceEnds_glue {a p : List Char} (ha : noSpaceEnds a) (hp : noSpaceEnds p)
    (hane : a ≠ []) (hpne : p ≠ []) : noSpaceEnds (a ++ '\n' :: p) := by
  constructor
  · intro c hc
    cases a with
    | nil => exact absurd rfl hane
    | cons x xs =>
      refine ha.1 c ?_
      simpa using hc
  · intro c hc
    rw [List.getLast?_append] at hc
    have hpl : ('\n' :: p).getLast? = p.getLast? := by
      cases p with
      | nil => exact absurd rfl hpne
      | cons y ys => exact List.getLast?_cons_cons ..
    rw [hpl] at hc
    obtain ⟨x, hx⟩ : ∃ x, p.getLast? = some x := by
      cases hq : p.getLast? with
      | none =>
        rw [List.getLast?_eq_none_iff] at hq
        exact absurd hq hpne
      | some x => exact ⟨x, rfl⟩
    rw [hx] at hc
    have hxc : x = c := by simpa using hc
    rw [← hxc]
    exact hp.2 x hx

/-- The packed buffer is unchanged by the re-strip in the loop body. -/
lemma pyStrip_glue {a p : List Char} (ha : noSpaceEnds a) (hp : noSpaceEnds p)
    (hane : a ≠ []) (hpne : p ≠ []) :
    pyStrip (a ++ '\n' :: p) = a ++ '\n' :: p :=
  pyStrip_eq_self _ (noSpaceEnds_glue ha hp hane hpne)

/-- Stripping a leading newline off a clean paragraph. -/
lemma pyStrip_newline_cons {p : List Char} (hp : noSpaceEnds p) (hpne : p ≠ []) :
    pyStrip ('\n' :: p) = p := by
  rw [pyStrip_as_rdropWhile]
  have h1 : ('\n' :: p).dropWhile pyIsSpace = p.dropWhile pyIsSpace := by
    rw [List.dropWhile_cons]
    simp [pyIsSpace]
  have h2 : p.dropWhile pyIsSpace = p := by
    have := pyStrip_eq_self p hp
    rw [pyStrip_as_rdropWhile] at this
    rw [List.dropWhile_eq_self_iff]
    intro hl
    have hhead : p.head? = some (p.get ⟨0, hl⟩) := by
      cases p with
      | nil => simp at hl
      | cons a t => rfl
    have h0 := hp.1 _ hhead
    simp only [h0]
    simp
  rw [h1, h2, List.rdropWhile_eq_self_iff]
  intro hl
  have hlast : p.getLast? = some (p.getLast hl) := List.getLast?_eq_getLast p hl
  have h0 := hp.2 _ hlast
  simp only [h0]
  simp

lemma joinLen_cons (x : List Char) (xs : List (List Char)) :
    joinLen (x :: xs) = x.length + (if xs.isEmpty then 0 else 1 + joinLen xs) := by
  cases xs with
  | nil => simp [joinLen]
  | cons y ys =>
    simp only [joinLen, List.isEmpty_cons, Bool.false_eq_true, if_false]
    omega

lemma joinNL_cons_cons (x y : List Char) (ys : List (List Char)) :
    joinNL (x :: y :: ys) = x ++ '\n' :: joinNL (y :: ys) := rfl

lemma joinLen_eq_length (xs : List (List Char)) :
    joinLen xs = (joinNL xs).length := by
  induction xs with
  | nil => rfl
  | cons x ys ih =>
    cases ys with
    | nil => rfl
    | cons y ys' =>
      rw [joinNL_cons_cons, joinLen_cons]
      simp only [List.isEmpty_cons, Bool.false_eq_true, if_false, List.length_append,
        List.length_cons]
      rw [ih]
      omega

lemma pySplitNl_ne_nil (text : List Char) : pySplitNl text ≠ [] := by
  cases text with
  | nil => simp [pySplitNl]
  | cons c rest =>
    unfold pySplitNl
    by_cases hc : c = '\n'
    · simp [hc]
    · rw [if_neg hc]
      cases pySplitNl rest <;> simp

/-- Joining the `split("\n")` parts with newlines restores the text. -/
lemma joinNL_pySplitNl (text : List Char) : joinNL (pySplitNl text) = text := by
  induction text with
  | nil => rfl
  | cons c rest ih =>
    unfold pySplitNl
    by_cases hc : c = '\n'
    · subst hc
      rw [if_pos rfl]
      cases hs : pySplitNl rest with
      | nil => exact absurd hs (pySplitNl_ne_nil rest)
      | cons l ls =>
        rw [joinNL_cons_cons]
        rw [hs] at ih
        rw [ih]
        rfl
    · rw [if_neg hc]
      cases hs : pySplitNl rest with
      | nil => exact absurd hs (pySplitNl_ne_nil rest)
      | cons l ls =>
        rw [hs] at ih
        cases ls with
        | nil =>
          simp only [joinNL] at ih ⊢
          rw [ih]
        | cons l2 ls2 =>
          rw [joinNL_cons_cons] at ih ⊢
          rw [List.cons_append, ih]

/-- Stripping paragraphs and dropping the empty ones never lengthens the
newline-join. -/
lemma joinLen_clean_le (raws : List (List Char)) :
    joinLen ((raws.map pyStrip).filter fun p => p ≠ []) ≤ joinLen raws := by
  induction raws with
  | nil => simp [joinLen]
  | cons r rs ih =>
    have hsl : (pyStrip r).length ≤ r.length := pyStrip_length_le r
    have hclean_nil : rs = [] →
        ((rs.map pyStrip).filter fun p => p ≠ []) = [] := by
      intro h
      rw [h]
      rfl
    simp only [List.map_cons, List.filter_cons]
    by_cases hs : pyStrip r ≠ []
    · rw [if_pos (by simpa using hs)]
      rw [joinLen_cons, joinLen_cons]
      by_cases hrs : ((rs.map pyStrip).filter fun p => p ≠ []) = []
      · rw [hrs]
        simp only [List.isEmpty_nil, if_true]
        cases rs with
        | nil => simpa using hsl
        | cons a b =>
          simp only [List.isEmpty_cons, if_false]
          rw [hrs] at ih
          simp only [joinLen] at ih
          omega
      · have hrsne : rs ≠ [] := fun h => hrs (hclean_nil h)
        rw [if_neg (by simpa using hrs), if_neg (by simpa using hrsne)]
        omega
    · rw [if_neg (by simpa using hs)]
      calc joinLen ((rs.map pyStrip).filter fun p => p ≠ []) ≤ joinLen rs := ih
        _ ≤ joinLen (r :: rs) := by
          rw [joinLen_cons]
          by_cases h : rs.isEmpty
          · have : rs = [] := by
              cases rs with
              | nil => rfl
              | cons a b => simp [List.isEmpty] at h
            rw [this]
            simp [joinLen]
          · rw [if_neg h]
            omega

lemma joinLen_head_le (x : List Char) (xs : List (List Char)) :
    x.length ≤ joinLen (x :: xs) := by
  rw [joinLen_cons]
  omega

lemma joinNL_ne_nil_of_head {x : List Char} (hx : x ≠ []) (xs : List (List Char)) :
    joinNL (x :: xs) ≠ [] := by
  cases xs with
  | nil => exact hx
  | cons y ys =>
    rw [joinNL_cons_cons]
    cases x with
    | nil => simp
    | cons a as => simp

lemma noSpaceEnds_joinNL {x : List Char} {xs : List (List Char)}
    (hx : x ≠ [] ∧ noSpaceEnds x) (hxs : ∀ p ∈ xs, p ≠ [] ∧ noSpaceEnds p) :
    noSpaceEnds (joinNL (x :: xs)) := by
  induction xs generalizing x with
  | nil => exact hx.2
  | cons y ys ih =>
    rw [joinNL_cons_cons]
    have hy := hxs y (by simp)
    have hjoin := ih hy (fun p hp => hxs p (by simp [hp]))
    exact noSpaceEnds_glue hx.2 hjoin hx.1
      (joinNL_ne_nil_of_head hy.1 ys)

/-- While everything fits in one chunk, the packing loop accumulates the
newline-join into the buffer and emits no chunk. -/
lemma packFold_single (maxChars : Nat) :
    ∀ (ps : List (List Char)) (acc : List Char),
      acc ≠ [] → noSpaceEnds acc →
      (∀ p ∈ ps, p ≠ [] ∧ noSpaceEnds p) →
      joinLen (acc :: ps) ≤ maxChars →
      ps.foldl (packStep maxChars) ([], acc) = ([], joinNL (acc :: ps)) := by
  intro ps
  induction ps with
  | nil =>
    intro acc _ _ _ _
    rfl
  | cons p ps ih =>
    intro acc hacc haccEnds hps hlen
    have hp := hps p (by simp)
    have hfit : acc.length + p.length + 1 ≤ maxChars := by
      have h1 : joinLen (acc :: p :: ps) = acc.length + 1 + joinLen (p :: ps) := rfl
      have h2 := joinLen_head_le p ps
      omega
    rw [List.foldl_cons]
    have hstep : packStep maxChars ([], acc) p = ([], acc ++ '\n' :: p) := by
      unfold packStep
      rw [if_pos hfit, pyStrip_glue haccEnds hp.2 hacc hp.1]
    rw [hstep]
    have hglueEnds : noSpaceEnds (acc ++ '\n' :: p) :=
      noSpaceEnds_glue haccEnds hp.2 hacc hp.1
    have hgluene : acc ++ '\n' :: p ≠ [] := by
      cases acc with
      | nil => exact absurd rfl hacc
      | cons a as => simp
    have hlen' : joinLen ((acc ++ '\n' :: p) :: ps) ≤ maxChars := by
      have heq : joinLen ((acc ++ '\n' :: p) :: ps) = joinLen (acc :: p :: ps) := by
        rw [joinLen_cons, joinLen_cons, joinLen_cons]
        simp only [List.length_append, List.length_cons, List.isEmpty_cons,
          Bool.false_eq_true, if_false]
        cases hps' : ps.isEmpty
        · simp only [hps', Bool.false_eq_true, if_false]
          omega
        · simp only [hps', eq_self_iff_true, if_true]
          omega
      rw [heq]
      exact hlen
    have hjoin : joinNL ((acc ++ '\n' :: p) :: ps) = joinNL (acc :: p :: ps) := by
      cases ps with
      | nil => rfl
      | cons q qs =>
        rw [joinNL_cons_cons, joinNL_cons_cons, joinNL_cons_cons]
        simp [List.append_assoc]
    rw [ih (acc ++ '\n' :: p) hgluene hglueEnds
      (fun q hq => hps q (by simp [hq])) hlen', hjoin]

lemma cleanParas_mem {text : List Char} {p : List Char}
    (hp : p ∈ cleanParas text) : p ≠ [] ∧ noSpaceEnds p := by
  unfold cleanParas at hp
  have hmemf := List.mem_filter.mp hp
  have hne : p ≠ [] := by simpa using hmemf.2
  obtain ⟨r, _, hr⟩ := List.mem_map.mp hmemf.1
  exact ⟨hne, hr ▸ noSpaceEnds_pyStrip r⟩

/-- **C9 (amended).** For every text whose length is at most the
max-chars budget, chunking yields the empty list when every line is
whitespace, and otherwise exactly one chunk: the newline-join of the
individually trimmed non-empty lines.  The amendment: the claim as
stated says the single chunk equals the trimmed text, but the chunk is
rebuilt from the trimmed lines, so whitespace adjacent to interior
newlines (and blank lines) is also removed — see
`c9_chunk_counterexample`.  The empty-text case of the claim is the
`cleanParas text = []` case. -/
theorem c9_chunk_small (text : List Char) (maxChars overlap : Nat)
    (hlen : text.length ≤ maxChars) :
    chunkText text maxChars overlap =
      if cleanParas text = [] then [] else [joinNL (cleanParas text)] := by
  have hjoinle : joinLen (cleanParas text) ≤ maxChars := by
    have h1 : joinLen (cleanParas text) ≤ joinLen (pySplitNl text) :=
      joinLen_clean_le (pySplitNl text)
    have h2 : joinLen (pySplitNl text) = text.length := by
      rw [joinLen_eq_length, joinNL_pySplitNl]
    omega
  unfold chunkText
  cases hcp : cleanParas text with
  | nil =>
    rw [if_pos rfl]
    rfl
  | cons p ps =>
    rw [if_neg (by simp)]
    have hp : p ≠ [] ∧ noSpaceEnds p := cleanParas_mem (hcp ▸ List.mem_cons_self _ _)
    have hps : ∀ q ∈ ps, q ≠ [] ∧ noSpaceEnds q := fun q hq =>
      cleanParas_mem (hcp ▸ List.mem_cons_of_mem _ hq)
    dsimp only
    rw [List.foldl_cons]
    have hfirst : packStep maxChars ([], []) p = ([], p) := by
      unfold packStep
      by_cases hfit : ([] : List Char).length + p.length + 1 ≤ maxChars
      · rw [if_pos hfit]
        rw [show ([] : List Char) ++ '\n' :: p = '\n' :: p from rfl,
          pyStrip_newline_cons hp.2 hp.1]
      · rw [if_neg hfit, if_neg (by simp)]
    rw [hfirst, packFold_single maxChars ps p hp.1 hp.2 hps (by rw [← hcp]; exact hjoinle)]
    have hjne : joinNL (p :: ps) ≠ [] := joinNL_ne_nil_of_head hp.1 ps
    rw [if_pos hjne]
    simp only [List.nil_append]
    rfl

/-- **C9, counterexample.** The claim as stated (text under the budget
yields one chunk equal to the trimmed text): the four-character text
`"a \nb"` is under every realistic budget and is already trimmed, yet
chunking yields `["a\nb"]`, not `["a \nb"]` — the space before the
interior newline is removed by the per-line strip. -/
theorem c9_chunk_counterexample :
    chunkText "a \nb".data 1800 300 ≠ [pyStrip "a \nb".data] ∧
    chunkText "a \nb".data 1800 300 = ["a\nb".data] := by
  constructor
  · decide
  · decide

/-- **C9, witness.** The empty text chunks to the empty list, and a
short text with clean lines chunks to the single joined chunk, both via
the main theorem. -/
theorem c9_chunk_small_witness :
    ("".data.length ≤ 1800 ∧ chunkText "".data 1800 300 = []) ∧
    ("ab\nc".data.length ≤ 1800 ∧ chunkText "ab\nc".data 1800 300 = ["ab\nc".data]) :=
  ⟨⟨by decide, (c9_chunk_small "".data 1800 300 (by decide)).trans (by decide)⟩,
   ⟨by decide, (c9_chunk_small "ab\nc".data 1800 300 (by decide)).trans (by decide)⟩⟩

/-! ## The embedding index

Embeds `EmbeddingIndex` of `src/llm/paper_index.py`.  Machine floats
are modelled as real numbers (so "score ≈ 1.0" becomes exactly 1).
numpy arrays are modelled by their shape-relevant structure: `build`
reads `embeddings.shape[1]`, which raises `IndexError` on a 1-D array
(the shape `np.asarray([])` has when zero texts are embedded), so the
model distinguishes 1-D from 2-D arrays.  `faiss.IndexFlatIP.search`
returns, for a single query, the `k` best stored vectors by inner
product with `-1` filling the slots beyond the number of stored
vectors; ties are returned in an implementation-defined order, modelled
here as lowest-index-first (no theorem below depends on the tie
order). -/

/-- A numpy float array: 1-D (`shape (n,)`) or 2-D (`shape (n, d)`,
rows all of length `d`). -/
inductive NpArr where
  | one (xs : List ℝ)
  | two (rows : List (List ℝ)) (d : Nat)

/-- Sum of squares of a vector. -/
def sumSq (v : List ℝ) : ℝ :=
  (v.map fun x => x ^ 2).sum

/-- `faiss.normalize_L2` on one row: divide by the L2 norm (a zero row
would produce non-finite floats in faiss; theorems about scores assume
non-zero rows). -/
noncomputable def nrmL2 (v : List ℝ) : List ℝ :=
  v.map fun x => x / Real.sqrt (sumSq v)

/-- Inner product (dot product of the common prefix, as
`np.dot`/faiss compute it for equal-length vectors). -/
def dotL (q v : List ℝ) : ℝ :=
  (List.zipWith (· * ·) q v).sum

/-- The built index: `self.index` (the stored, normalized matrix `xb`
and its dimension), `self.vectors`, and `self.ids`. -/
structure EmbIdx where
  dim : Nat
  xb : List (List ℝ)
  vectors : List (List ℝ)
  ids : List String

/-- `EmbeddingIndex.build(embeddings, ids)`: normalize the rows, read
`dim = embeddings.shape[1]` (IndexError for a 1-D array, also raised
earlier inside `faiss.normalize_L2`), create the flat
inner-product index and add the normalized rows; store the normalized
matrix and the ids. -/
noncomputable def EmbIdx.build (embeddings : NpArr) (ids : List String) :
    Except String EmbIdx :=
  match embeddings with
  | .one _ => .error "IndexError: shape[1] on a 1-dimensional array"
  | .two rows d =>
    let nrm := rows.map nrmL2
    .ok { dim := d, xb := nrm, vectors := nrm, ids := ids }

/-- The ranking used by the flat inner-product index: higher score
first; equal scores by lower index (the model's tie order). -/
def rankRel (a b : Nat × ℝ) : Prop :=
  b.2 < a.2 ∨ (a.2 = b.2 ∧ a.1 ≤ b.1)

noncomputable instance : DecidableRel rankRel := fun _ _ => instDecidableOr

instance : IsTotal (Nat × ℝ) rankRel where
  total a b := by
    rcases lt_trichotomy a.2 b.2 with h | h | h
    · exact Or.inr (Or.inl h)
    · rcases Nat.le_total a.1 b.1 with h1 | h1
      · exact Or.inl (Or.inr ⟨h, h1⟩)
      · exact Or.inr (Or.inr ⟨h.symm, h1⟩)
    · exact Or.inl (Or.inl h)

instance : IsTrans (Nat × ℝ) rankRel where
  trans a b c hab hbc := by
    rcases hab with h1 | ⟨h1, h1'⟩ <;> rcases hbc with h2 | ⟨h2, h2'⟩
    · exact Or.inl (h2.trans h1)
    · exact Or.inl (h2 ▸ h1)
    · exact Or.inl (h1 ▸ h2)
    · exact Or.inr ⟨h1.trans h2, h1'.trans h2'⟩

/-- `D, I = index.search(q.reshape(1, -1), k)` for one query: the `k`
result slots as (score, stored-row index) pairs, `-1` (with a junk
score) for the slots beyond the number of stored vectors. -/
noncomputable def faissSearch (xb : List (List ℝ)) (q : List ℝ) (k : Nat) :
    List (ℝ × Int) :=
  let scored := (xb.map fun v => dotL q v).enum
  let sorted := List.insertionSort rankRel scored
  (sorted.take k).map (fun p => (p.2, (p.1 : Int))) ++
    List.replicate (k - xb.length) ((0 : ℝ), (-1 : Int))

/-- `[(self.ids[i], float(D[0][j])) for j, i in enumerate(I[0]) if i != -1]`:
skip sentinel slots, look each index up in `ids` (`none` models the
IndexError Python raises when `ids` is shorter than the stored
matrix). -/
def collectHits (ids : List String) : List (ℝ × Int) → Option (List (String × ℝ))
  | [] => some []
  | (s, i) :: rest =>
    if i = -1 then collectHits ids rest
    else
      match ids.get? i.toNat with
      | none => none
      | some id => (collectHits ids rest).map fun tl => (id, s) :: tl

/-- `EmbeddingIndex.search(vec, k)`: normalize the query, run the index
search, and collect the non-sentinel hits. -/
noncomputable def EmbIdx.search (idx : EmbIdx) (vec : List ℝ) (k : Nat) :
    Option (List (String × ℝ)) :=
  collectHits idx.ids (faissSearch idx.xb (nrmL2 vec) k)

lemma collectHits_replicate_sentinel (ids : List String) (n : Nat) :
    collectHits ids (List.replicate n ((0 : ℝ), (-1 : Int))) = some [] := by
  induction n with
  | zero => rfl
  | succ n ih =>
    rw [List.replicate_succ]
    unfold collectHits
    rw [if_pos rfl]
    exact ih

/-- **C7 (amended).** Building from an explicitly two-dimensional empty
matrix (`0 × d`) never raises, and every subsequent search on the
resulting index returns the empty result list.  The amendment: the
claim as stated fails for the empty matrix the pipeline itself
produces — embedding zero texts gives `np.asarray([])`, a
one-dimensional array, and `build` then raises `IndexError` at
`embeddings.shape[1]` (and inside `faiss.normalize_L2`); see
`c7_empty_build_counterexample`. -/
theorem c7_empty_build_searches_empty (d : Nat) (ids : List String)
    (q : List ℝ) (k : Nat) :
    ∃ idx, EmbIdx.build (NpArr.two [] d) ids = Except.ok idx ∧
      idx.search q k = some [] := by
  refine ⟨{ dim := d, xb := [], vectors := [], ids := ids }, rfl, ?_⟩
  unfold EmbIdx.search faissSearch
  simp only [List.map_nil, List.enum_nil, List.length_nil, Nat.sub_zero]
  rw [show List.insertionSort rankRel [] = [] from rfl, List.take_nil, List.map_nil,
    List.nil_append]
  exact collectHits_replicate_sentinel ids k

/-- **C7, counterexample.** The claim as stated (building with zero
vectors never raises): building from the one-dimensional empty array —
exactly the value `np.asarray([], dtype="float32")` that embedding zero
texts produces — raises `IndexError` (modelled as `Except.error`)
instead of yielding an index. -/
theorem c7_empty_build_counterexample :
    EmbIdx.build (NpArr.one []) [] =
      Except.error "IndexError: shape[1] on a 1-dimensional array" := rfl


/-- When every non-sentinel slot is within `ids`, the hit collection
succeeds and equals the slot-by-slot lookup. -/
lemma collectHits_some (ids : List String) :
    ∀ slots : List (ℝ × Int),
      (∀ sl ∈ slots, sl.2 ≠ -1 → sl.2.toNat < ids.length) →
      collectHits ids slots = some (slots.filterMap fun sl =>
        if sl.2 = -1 then none
        else (ids.get? sl.2.toNat).map fun id => (id, sl.1)) := by
  intro slots
  induction slots with
  | nil => intro _; rfl
  | cons sl rest ih =>
    intro hrange
    obtain ⟨s, i⟩ := sl
    have hrest := fun q hq => hrange q (List.mem_cons_of_mem _ hq)
    by_cases hi : i = -1
    · unfold collectHits
      rw [if_pos hi, List.filterMap_cons]
      simp only [hi, if_pos rfl]
      exact ih hrest
    · have hlt : i.toNat < ids.length := hrange (s, i) (by simp) hi
      obtain ⟨id, hid⟩ : ∃ id, ids.get? i.toNat = some id :=
        ⟨_, List.get?_eq_get hlt⟩
      unfold collectHits
      rw [if_neg hi, hid, ih hrest, List.filterMap_cons]
      simp only [if_neg hi, hid]
      rfl

/-- Looking pairwise-distinct positions up in a duplicate-free list
yields pairwise-distinct values. -/
lemma filterMap_get?_nodup {ids : List String} (hnodup : ids.Nodup) :
    ∀ ps : List (Nat × ℝ), (ps.map Prod.fst).Nodup →
      (ps.filterMap fun p => ids.get? p.1).Nodup := by
  intro ps
  induction ps with
  | nil => intro _; exact List.nodup_nil
  | cons p rest ih =>
    intro hnd
    rw [List.map_cons] at hnd
    have hnd' := List.nodup_cons.mp hnd
    rw [List.filterMap_cons]
    cases hg : ids.get? p.1 with
    | none => exact ih hnd'.2
    | some id =>
      refine List.nodup_cons.mpr ⟨?_, ih hnd'.2⟩
      intro hmem
      obtain ⟨q, hq, hgq⟩ := List.mem_filterMap.mp hmem
      have hlt : p.1 < ids.length := by
        by_contra h
        rw [List.get?_eq_none.mpr (le_of_not_lt h)] at hg
        cases hg
      have hpq : p.1 = q.1 := List.get?_inj hlt hnodup (hg.trans hgq.symm)
      exact hnd'.1 (hpq ▸ List.mem_map_of_mem Prod.fst hq)

/-- **C4.** For every index built from a matrix of stored vectors and a
parallel list of distinct ids, `search(query, k)` returns normally: at
most `k` results and at most one per stored vector (so `k` larger than
the number of stored vectors yields at most that number); sentinel
(`-1`) slots are excluded; every returned id is one of the ids passed to
`build`; the returned ids are pairwise distinct; and `k = 0` yields the
empty list. -/
theorem c4_search_bounds (rows : List (List ℝ)) (d : Nat) (ids : List String)
    (idx : EmbIdx)
    (hbuild : EmbIdx.build (NpArr.two rows d) ids = Except.ok idx)
    (hlen : ids.length = rows.length)
    (hnodup : ids.Nodup) (q : List ℝ) (k : Nat) :
    ∃ res, idx.search q k = some res ∧
      res.length ≤ k ∧ res.length ≤ rows.length ∧
      (∀ pr ∈ res, pr.1 ∈ ids) ∧
      (res.map Prod.fst).Nodup ∧
      (k = 0 → res = []) := by
  have hidx :
      idx = { dim := d, xb := rows.map nrmL2, vectors := rows.map nrmL2, ids := ids } := by
    have h := hbuild
    unfold EmbIdx.build at h
    exact (Except.ok.inj h).symm
  subst hidx
  unfold EmbIdx.search faissSearch
  dsimp only
  set scored := ((rows.map nrmL2).map fun v => dotL (nrmL2 q) v).enum with hscored
  set sorted := List.insertionSort rankRel scored with hsorted
  have hperm : sorted.Perm scored := List.perm_insertionSort rankRel scored
  have hscoredlen : scored.length = rows.length := by
    rw [hscored, List.enum_length, List.length_map, List.length_map]
  have hfst : scored.map Prod.fst = List.range rows.length := by
    rw [hscored, List.enum_map_fst, List.length_map, List.length_map]
  have hmemlt : ∀ p ∈ sorted, p.1 < rows.length := by
    intro p hp
    have h1 : p ∈ scored := hperm.mem_iff.mp hp
    have h2 : p.1 ∈ scored.map Prod.fst := List.mem_map_of_mem Prod.fst h1
    rw [hfst] at h2
    exact List.mem_range.mp h2
  have hrange : ∀ sl ∈ ((sorted.take k).map fun p => ((p.2 : ℝ), (p.1 : Int))) ++
      List.replicate (k - (rows.map nrmL2).length) ((0 : ℝ), (-1 : Int)),
      sl.2 ≠ -1 → sl.2.toNat < ids.length := by
    intro sl hsl hne
    rcases List.mem_append.mp hsl with hmem | hmem
    · obtain ⟨p, hp, hpe⟩ := List.mem_map.mp hmem
      have hlt := hmemlt p (List.mem_of_mem_take hp)
      rw [← hpe]
      simpa [hlen] using hlt
    · have h0 := List.eq_of_mem_replicate hmem
      rw [h0] at hne
      simp at hne
  have hres : ((((sorted.take k).map fun p => ((p.2 : ℝ), (p.1 : Int))) ++
      List.replicate (k - (rows.map nrmL2).length) ((0 : ℝ), (-1 : Int))).filterMap
        fun sl => if sl.2 = -1 then none
          else (ids.get? sl.2.toNat).map fun id => (id, sl.1)) =
      (sorted.take k).filterMap fun p => (ids.get? p.1).map fun id => (id, p.2) := by
    rw [List.filterMap_append]
    have hrep : ((List.replicate (k - (rows.map nrmL2).length)
        ((0 : ℝ), (-1 : Int))).filterMap
        fun sl => if sl.2 = -1 then none
          else (ids.get? sl.2.toNat).map fun id => (id, sl.1)) = [] := by
      rw [List.filterMap_eq_nil]
      intro a ha
      rw [List.eq_of_mem_replicate ha]
      rfl
    rw [hrep, List.append_nil, List.filterMap_map]
    congr 1
  rw [collectHits_some ids _ hrange, hres]
  refine ⟨_, rfl, ?_, ?_, ?_, ?_, ?_⟩
  · calc ((sorted.take k).filterMap fun p =>
        (ids.get? p.1).map fun id => (id, p.2)).length
        ≤ (sorted.take k).length := List.length_filterMap_le _ _
    _ ≤ k := by rw [List.length_take]; omega
  · calc ((sorted.take k).filterMap fun p =>
        (ids.get? p.1).map fun id => (id, p.2)).length
        ≤ (sorted.take k).length := List.length_filterMap_le _ _
    _ ≤ rows.length := by
        rw [List.length_take, List.length_insertionSort, hscoredlen]
        omega
  · intro pr hpr
    obtain ⟨p, _, hpe⟩ := List.mem_filterMap.mp hpr
    obtain ⟨id, hid, hide⟩ := Option.map_eq_some'.mp hpe
    rw [← hide]
    exact List.get?_mem hid
  · have hmap : (((sorted.take k).filterMap fun p =>
        (ids.get? p.1).map fun id => (id, p.2)).map Prod.fst) =
        (sorted.take k).filterMap fun p => ids.get? p.1 := by
      rw [List.map_filterMap]
      congr 1
      funext p
      rw [Option.map_map]
      cases ids.get? p.1 <;> rfl
    rw [hmap]
    refine filterMap_get?_nodup hnodup _ ?_
    have htake : (sorted.take k).map Prod.fst = (sorted.map Prod.fst).take k := by
      rw [List.map_take]
    rw [htake]
    refine (List.take_sublist _ _).nodup ?_
    have hpm : (sorted.map Prod.fst).Perm (scored.map Prod.fst) := hperm.map Prod.fst
    rw [hfst] at hpm
    exact hpm.nodup_iff.mpr (List.nodup_range _)
  · intro hk
    subst hk
    rw [List.take_zero]
    rfl

/-- **C4, witness.** The search theorem applied at a concrete index:
two stored rows `[[1,0],[0,1]]` with ids `["A","B"]`, query `[1,0]`,
`k = 0`; the concrete result list is `[]`. -/
theorem c4_search_bounds_witness :
    ∃ res,
      EmbIdx.search
        { dim := 2, xb := [[(1:ℝ),0],[0,1]].map nrmL2,
          vectors := [[(1:ℝ),0],[0,1]].map nrmL2, ids := ["A","B"] }
        [1,0] 0 = some res ∧
      res.length ≤ 0 ∧ res.length ≤ [[(1:ℝ),0],[0,1]].length ∧
      (∀ pr ∈ res, pr.1 ∈ ["A","B"]) ∧
      (res.map Prod.fst).Nodup ∧
      (0 = 0 → res = []) :=
  c4_search_bounds [[(1:ℝ),0],[0,1]] 2 ["A","B"] _ rfl rfl (by decide) [1,0] 0

/-! ## C5: round-trip search -/

lemma sumSq_cons (a : ℝ) (t : List ℝ) : sumSq (a :: t) = a ^ 2 + sumSq t := by
  unfold sumSq
  rw [List.map_cons, List.sum_cons]

lemma dotL_cons (a b : ℝ) (t s : List ℝ) :
    dotL (a :: t) (b :: s) = a * b + dotL t s := by
  unfold dotL
  rw [List.zipWith_cons_cons, List.sum_cons]

/-- Squared Euclidean distance between two vectors, the quantity whose
nonnegativity bounds the inner product of unit vectors. -/
def sub2Sum (u w : List ℝ) : ℝ :=
  ((List.zipWith (· - ·) u w).map fun x => x ^ 2).sum

lemma sub2Sum_cons (a b : ℝ) (t s : List ℝ) :
    sub2Sum (a :: t) (b :: s) = (a - b) ^ 2 + sub2Sum t s := by
  unfold sub2Sum
  rw [List.zipWith_cons_cons, List.map_cons, List.sum_cons]

lemma sumSq_nonneg (v : List ℝ) : 0 ≤ sumSq v :=
  List.sum_nonneg fun x hx => by
    obtain ⟨y, _, rfl⟩ := List.mem_map.mp hx
    positivity

lemma sub2Sum_nonneg (u w : List ℝ) : 0 ≤ sub2Sum u w :=
  List.sum_nonneg fun x hx => by
    obtain ⟨y, _, rfl⟩ := List.mem_map.mp hx
    positivity

lemma dotL_self (v : List ℝ) : dotL v v = sumSq v := by
  induction v with
  | nil => rfl
  | cons a t ih =>
    rw [dotL_cons, sumSq_cons, ih]
    ring

lemma sumSq_div (v : List ℝ) (c : ℝ) :
    sumSq (v.map fun x => x / c) = sumSq v / c ^ 2 := by
  induction v with
  | nil => simp [sumSq]
  | cons a t ih =>
    rw [List.map_cons, sumSq_cons, sumSq_cons, ih]
    ring

lemma sumSq_nrmL2 (v : List ℝ) (h : sumSq v ≠ 0) : sumSq (nrmL2 v) = 1 := by
  unfold nrmL2
  rw [sumSq_div, Real.sq_sqrt (sumSq_nonneg v), div_self h]

lemma nrmL2_length (v : List ℝ) : (nrmL2 v).length = v.length := by
  simp [nrmL2]

lemma sub2Sum_expand : ∀ u w : List ℝ, u.length = w.length →
    sub2Sum u w = sumSq u - 2 * dotL u w + sumSq w
  | [], [] => fun _ => by simp [sub2Sum, sumSq, dotL]
  | [], _ :: _ => fun h => by simp at h
  | _ :: _, [] => fun h => by simp at h
  | a :: t, b :: s => fun h => by
    have hl : t.length = s.length := by simpa using h
    rw [sub2Sum_cons, dotL_cons, sumSq_cons, sumSq_cons, sub2Sum_expand t s hl]
    ring

lemma sub2Sum_eq_zero : ∀ u w : List ℝ, u.length = w.length →
    (sub2Sum u w = 0 ↔ u = w)
  | [], [] => fun _ => by simp [sub2Sum]
  | [], _ :: _ => fun h => by simp at h
  | _ :: _, [] => fun h => by simp at h
  | a :: t, b :: s => fun h => by
    have hl : t.length = s.length := by simpa using h
    rw [sub2Sum_cons]
    constructor
    · intro h0
      have h1 : sub2Sum t s = 0 := by
        nlinarith [sub2Sum_nonneg t s, sq_nonneg (a - b)]
      have h2 : (a - b) ^ 2 = 0 := by
        nlinarith [sub2Sum_nonneg t s, sq_nonneg (a - b)]
      have hab : a = b := sub_eq_zero.mp ((pow_eq_zero_iff (by norm_num)).mp h2)
      rw [hab, (sub2Sum_eq_zero t s hl).mp h1]
    · intro h0
      injection h0 with hab hts
      rw [hab, sub_self, (sub2Sum_eq_zero t s hl).mpr hts]
      norm_num

lemma dotL_le_one (u w : List ℝ) (hl : u.length = w.length)
    (hu : sumSq u = 1) (hw : sumSq w = 1) : dotL u w ≤ 1 := by
  have h := sub2Sum_nonneg u w
  rw [sub2Sum_expand u w hl, hu, hw] at h
  linarith

lemma dotL_eq_one_iff (u w : List ℝ) (hl : u.length = w.length)
    (hu : sumSq u = 1) (hw : sumSq w = 1) : dotL u w = 1 ↔ u = w := by
  rw [← sub2Sum_eq_zero u w hl, sub2Sum_expand u w hl, hu, hw]
  constructor <;> intro h <;> linarith

/-- **C5 (amended).** Round-trip: for an index built from a matrix of
rows all of width `d`, none of them zero, and a parallel id list,
searching with an exact row whose normalized form differs from every
other row's normalized form returns that row's id as the rank-1 result
with score exactly `1` (the model's "approximately 1.0"), for any
`k ≥ 1`.  The amendment over the spec: with duplicate (or
normalization-equal) rows the rank-1 id can be the duplicate's instead;
see `c5_roundtrip_counterexample`. -/
theorem c5_roundtrip (rows : List (List ℝ)) (d : Nat) (ids : List String)
    (idx : EmbIdx)
    (hbuild : EmbIdx.build (NpArr.two rows d) ids = Except.ok idx)
    (hlen : ids.length = rows.length)
    (i : Nat) (hi : i < rows.length) (hi' : i < ids.length)
    (hd : ∀ r ∈ rows, r.length = d)
    (hnz : ∀ r ∈ rows, sumSq r ≠ 0)
    (hdist : ∀ j (hj : j < rows.length), j ≠ i →
      nrmL2 (rows.get ⟨j, hj⟩) ≠ nrmL2 (rows.get ⟨i, hi⟩))
    (k : Nat) (hk : 1 ≤ k) :
    ∃ rest, idx.search (rows.get ⟨i, hi⟩) k =
      some ((ids.get ⟨i, hi'⟩, (1 : ℝ)) :: rest) := by
  have hidx :
      idx = { dim := d, xb := rows.map nrmL2, vectors := rows.map nrmL2, ids := ids } := by
    have h := hbuild
    unfold EmbIdx.build at h
    exact (Except.ok.inj h).symm
  subst hidx
  unfold EmbIdx.search faissSearch
  dsimp only
  set q := rows.get ⟨i, hi⟩ with hq
  set u := nrmL2 q with hu
  set l := (rows.map nrmL2).map (fun v => dotL u v) with hl
  set scored := l.enum with hscored
  set sorted := List.insertionSort rankRel scored with hsorted
  have hperm : sorted.Perm scored := List.perm_insertionSort rankRel scored
  have hsort : List.Sorted rankRel sorted := List.sorted_insertionSort rankRel scored
  have hu1 : sumSq u = 1 := by
    rw [hu]
    exact sumSq_nrmL2 q (hnz q (by rw [hq]; exact List.get_mem _ _ _))
  have hlength : l.length = rows.length := by
    rw [hl, List.length_map, List.length_map]
  have hgetl : ∀ j (hj : j < rows.length),
      l.get? j = some (dotL u (nrmL2 (rows.get ⟨j, hj⟩))) := by
    intro j hj
    rw [hl, List.get?_map, List.get?_map, List.get?_eq_get hj]
    rfl
  have hsi : l.get? i = some 1 := by
    rw [hgetl i hi]
    congr 1
    rw [← hq, ← hu, dotL_self, hu1]
  have hmem : ∀ p ∈ sorted, l.get? p.1 = some p.2 := by
    intro p hp
    exact List.mem_enum_iff_get?.mp (hperm.mem_iff.mp hp)
  have hlt : ∀ j (hj : j < rows.length), j ≠ i →
      dotL u (nrmL2 (rows.get ⟨j, hj⟩)) < 1 := by
    intro j hj hne
    set w := nrmL2 (rows.get ⟨j, hj⟩) with hw
    have hw1 : sumSq w = 1 := sumSq_nrmL2 _ (hnz _ (List.get_mem _ _ _))
    have hlw : u.length = w.length := by
      rw [hu, hw, nrmL2_length, nrmL2_length, hq,
        hd _ (List.get_mem _ _ _), hd _ (List.get_mem _ _ _)]
    rcases lt_or_eq_of_le (dotL_le_one u w hlw hu1 hw1) with h | h
    · exact h
    · exfalso
      have heq := (dotL_eq_one_iff u w hlw hu1 hw1).mp h
      exact hdist j hj hne (by rw [← hw, ← heq, hu, hq])
  have hlen0 : sorted.length = rows.length := by
    rw [hperm.length_eq, hscored, List.enum_length, hlength]
  obtain ⟨⟨j0, s0⟩, tl, hcons⟩ : ∃ h0 tl, sorted = h0 :: tl := by
    cases hs : sorted with
    | nil =>
      rw [hs] at hlen0
      simp at hlen0
      omega
    | cons a t => exact ⟨a, t, rfl⟩
  have hh0 : l.get? j0 = some s0 := by
    apply hmem (j0, s0)
    rw [hcons]
    exact List.mem_cons_self _ _
  have hj0 : j0 < rows.length := by
    by_contra hge
    rw [List.get?_eq_none.mpr (by rw [hlength]; omega)] at hh0
    cases hh0
  have hs0eq : s0 = dotL u (nrmL2 (rows.get ⟨j0, hj0⟩)) :=
    Option.some.inj (hh0.symm.trans (hgetl j0 hj0))
  have hhead : ((j0, s0) : Nat × ℝ) = (i, 1) := by
    rcases eq_or_ne j0 i with he | he
    · have h3 : l.get? j0 = some 1 := by rw [he]; exact hsi
      have h4 : s0 = 1 := Option.some.inj (hh0.symm.trans h3)
      rw [he, h4]
    · exfalso
      have hslt : s0 < 1 := by rw [hs0eq]; exact hlt j0 hj0 he
      have hmemtl : ((i, (1:ℝ))) ∈ tl := by
        have h5 : ((i, (1:ℝ))) ∈ sorted := by
          rw [hperm.mem_iff, hscored, List.mem_enum_iff_get?]
          exact hsi
        rw [hcons] at h5
        rcases List.mem_cons.mp h5 with h6 | h6
        · exact absurd (congrArg Prod.fst h6).symm he
        · exact h6
      have hrel : rankRel (j0, s0) (i, 1) := by
        rw [hcons] at hsort
        exact (List.sorted_cons.mp hsort).1 _ hmemtl
      have hrel2 : (1:ℝ) < s0 ∨ (s0 = 1 ∧ j0 ≤ i) := hrel
      rcases hrel2 with h8 | ⟨h8, _⟩
      · linarith
      · exact absurd h8 (ne_of_lt hslt)
  rw [hhead] at hcons
  obtain ⟨k1, rfl⟩ : ∃ k1, k = k1 + 1 := ⟨k - 1, by omega⟩
  have hrange : ∀ sl ∈ ((tl.take k1).map fun p => ((p.2 : ℝ), (p.1 : Int))) ++
      List.replicate (k1 + 1 - (rows.map nrmL2).length) ((0:ℝ), (-1:Int)),
      sl.2 ≠ -1 → sl.2.toNat < ids.length := by
    intro sl hsl hne2
    rcases List.mem_append.mp hsl with hmem2 | hmem2
    · obtain ⟨p, hp, hpe⟩ := List.mem_map.mp hmem2
      have hpin : p ∈ sorted := by
        rw [hcons]
        exact List.mem_cons_of_mem _ (List.mem_of_mem_take hp)
      have hq2 := hmem p hpin
      have hplt : p.1 < l.length := by
        by_contra hge
        rw [List.get?_eq_none.mpr (by omega)] at hq2
        cases hq2
      rw [← hpe]
      simp only [Int.toNat_natCast]
      rw [hlength] at hplt
      omega
    · rw [List.eq_of_mem_replicate hmem2] at hne2
      simp at hne2
  have hget : ids.get? ((i : Int)).toNat = some (ids.get ⟨i, hi'⟩) := by
    rw [Int.toNat_natCast]
    exact List.get?_eq_get hi'
  have hstep : ∀ rest : List (ℝ × Int),
      collectHits ids ((((1:ℝ), (i : Int))) :: rest) =
        (collectHits ids rest).map fun tl2 => (ids.get ⟨i, hi'⟩, (1:ℝ)) :: tl2 := by
    intro rest
    conv_lhs => unfold collectHits
    rw [if_neg (by omega : ¬((i : Int) = -1)), hget]
  rw [hcons, List.take_succ_cons, List.map_cons, List.cons_append]
  dsimp only
  rw [hstep, collectHits_some ids _ hrange]
  exact ⟨_, rfl⟩

/-- **C5, counterexample.** The claim as stated — searching with *any*
exact row returns *that row's* id at rank 1 — fails for duplicate rows:
with the matrix `[[1],[1]]` and ids `["A","B"]`, rows 0 and 1 are the
identical vector `[1]`, so the two searches are the same computation
and cannot return both `"A"` (required for row 0) and `"B"` (required
for row 1) at rank 1, whatever the tie order. -/
theorem c5_roundtrip_counterexample :
    ¬ ∀ (idx : EmbIdx),
        EmbIdx.build (NpArr.two [[(1:ℝ)],[1]] 1) ["A", "B"] = Except.ok idx →
        ∀ i r id0, [[(1:ℝ)],[1]].get? i = some r → ["A", "B"].get? i = some id0 →
        ∃ s rest, idx.search r 1 = some ((id0, s) :: rest) := by
  intro h
  obtain ⟨s0, rest0, h0⟩ := h _ rfl 0 [1] "A" rfl rfl
  obtain ⟨s1, rest1, h1⟩ := h _ rfl 1 [1] "B" rfl rfl
  rw [h0] at h1
  have h2 := Option.some.inj h1
  have h3 : "A" = "B" := congrArg Prod.fst (List.head_eq_of_cons_eq h2)
  exact absurd h3 (by decide)

/-- **C5, witness.** The amended round-trip theorem applied at the
concrete matrix `[[1,0],[0,1]]` with ids `["A","B"]`: searching with
row 0 (`[1,0]`) and `k = 1` returns `("A", 1)` at rank 1. -/
theorem c5_roundtrip_witness :
    ∃ rest,
      EmbIdx.search
        { dim := 2, xb := [[(1:ℝ),0],[0,1]].map nrmL2,
          vectors := [[(1:ℝ),0],[0,1]].map nrmL2, ids := ["A", "B"] }
        [1, 0] 1 =
      some (("A", (1:ℝ)) :: rest) := by
  have e1 : nrmL2 [(1:ℝ), 0] = [1, 0] := by
    unfold nrmL2
    rw [show sumSq [(1:ℝ), 0] = 1 by norm_num [sumSq], Real.sqrt_one]
    norm_num
  have e0 : nrmL2 [(0:ℝ), 1] = [0, 1] := by
    unfold nrmL2
    rw [show sumSq [(0:ℝ), 1] = 1 by norm_num [sumSq], Real.sqrt_one]
    norm_num
  exact c5_roundtrip [[(1:ℝ),0],[0,1]] 2 ["A", "B"] _ rfl rfl 0 (by decide) (by decide)
    (by
      intro r hr
      rcases List.mem_cons.mp hr with rfl | hr2
      · rfl
      · rcases List.mem_cons.mp hr2 with rfl | hr3
        · rfl
        · exact absurd hr3 (List.not_mem_nil r))
    (by
      intro r hr
      rcases List.mem_cons.mp hr with rfl | hr2
      · norm_num [sumSq]
      · rcases List.mem_cons.mp hr2 with rfl | hr3
        · norm_num [sumSq]
        · exact absurd hr3 (List.not_mem_nil r))
    (by
      intro j hj hne
      have hj2 : j < 2 := by simpa using hj
      have hj1 : j = 1 := by omega
      subst hj1
      show nrmL2 [(0:ℝ), 1] ≠ nrmL2 [(1:ℝ), 0]
      rw [e0, e1]
      intro hc
      have hh := congrArg List.head? hc
      simp only [List.head?_cons, Option.some.injEq] at hh
      exact zero_ne_one hh)
    1 (le_refl 1)

/-! ## C6: the persisted cache of `build_pdf_index`

Embeds `build_pdf_index` of `src/llm/paper_index.py` (the copy in
`src/llm/paper_index_ollama.py` has the same cache logic).  The three
cache artifacts `vectors.npy`, `ids.json`, `chunks.json` are modelled
as `Option` payloads (`none` = file absent); the PDF text extraction
and the embedding call are inputs (`pdfText`, `embed`). -/

/-- `DocChunk` of `src/llm/paper_index.py`. -/
structure DocChunk where
  id : String
  text : List Char
deriving DecidableEq

/-- The state of the `rag_cache` directory: the three artifact files,
each present (`some` payload) or absent (`none`). -/
structure RagCache where
  vecFile : Option NpArr
  idsFile : Option (List String)
  chunksFile : Option (List DocChunk)

/-- `build_pdf_index(pdf_path, ...)`: if `vectors.npy`, `ids.json` and
`chunks.json` all exist, load them and build the index from the cached
artifacts (no further validation); otherwise extract the text, chunk
it, give chunk `i` the id `"C" ++ i`, embed the chunk texts, build and
persist. -/
noncomputable def buildPdfIndex (cache : RagCache) (pdfText : List Char)
    (embed : List (List Char) → NpArr) : Except String (EmbIdx × List DocChunk) :=
  match cache.vecFile, cache.idsFile, cache.chunksFile with
  | some vectors, some ids, some chunks =>
    (EmbIdx.build vectors ids).map fun idx => (idx, chunks)
  | _, _, _ =>
    let rawChunks := chunkText pdfText 1800 300
    let chunks := rawChunks.enum.map fun p => DocChunk.mk ("C" ++ toString p.1) p.2
    let embeddings := embed (chunks.map fun c => c.text)
    (EmbIdx.build embeddings (chunks.map fun c => c.id)).map fun idx => (idx, chunks)

/-- **C6, counterexample.** The claim that a length mismatch across the
three artifacts is treated as a cache miss (triggering a rebuild from
the source document): with 2 cached vectors, 1 cached id and 1 cached
chunk — all three files present but mutually inconsistent — the
function does *not* behave like the empty cache: it returns the stale
cached chunk `"x"` instead of the chunk `"hello"` a rebuild extracts. -/
theorem c6_cache_counterexample :
    ¬ ∀ (vrows : List (List ℝ)) (d : Nat) (ids2 : List String)
        (chunks2 : List DocChunk) (text : List Char)
        (embed : List (List Char) → NpArr),
        vrows.length ≠ ids2.length →
        buildPdfIndex ⟨some (NpArr.two vrows d), some ids2, some chunks2⟩ text embed =
          buildPdfIndex ⟨none, none, none⟩ text embed := by
  intro h
  have h2 := h [[(1:ℝ)],[1]] 1 ["A"] [⟨"C0", "x".data⟩] "hello".data
    (fun texts => NpArr.two (texts.map fun _ => [(1:ℝ)]) 1) (by decide)
  have h3 := congrArg
    (fun e => match e with | Except.ok p => p.2 | Except.error _ => ([] : List DocChunk)) h2
  exact absurd h3 (by decide)

/-- **C6 (amended).** The cache branch of `build_pdf_index` checks only
that all three artifact files are present: even when the numbers of
cached vectors and cached ids disagree, the pipeline still uses the
cache — it builds the index from the cached artifacts and returns the
cached chunks unchanged, with no rebuild from the source document (the
length mismatch surfaces only later, as in `c4_search_bounds` /
`c5_roundtrip` whose id lookups need `ids` to cover the stored rows). -/
theorem c6_cache_checks_presence_only (vrows : List (List ℝ)) (d : Nat)
    (ids2 : List String) (cs : List DocChunk) (text : List Char)
    (embed : List (List Char) → NpArr)
    (hmis : vrows.length ≠ ids2.length) :
    buildPdfIndex ⟨some (NpArr.two vrows d), some ids2, some cs⟩ text embed =
      Except.ok
        ({ dim := d, xb := vrows.map nrmL2, vectors := vrows.map nrmL2, ids := ids2 }, cs) :=
  rfl

/-- **C6, witness.** The amended theorem at the concrete mismatched
cache of `c6_cache_counterexample`. -/
theorem c6_cache_checks_presence_only_witness :
    buildPdfIndex
        ⟨some (NpArr.two [[(1:ℝ)],[1]] 1), some ["A"], some [⟨"C0", "x".data⟩]⟩
        "hello".data (fun texts => NpArr.two (texts.map fun _ => [(1:ℝ)]) 1) =
      Except.ok
        ({ dim := 1, xb := [[(1:ℝ)],[1]].map nrmL2,
           vectors := [[(1:ℝ)],[1]].map nrmL2, ids := ["A"] }, [⟨"C0", "x".data⟩]) :=
  c6_cache_checks_presence_only [[(1:ℝ)],[1]] 1 ["A"] [⟨"C0", "x".data⟩]
    "hello".data (fun texts => NpArr.two (texts.map fun _ => [(1:ℝ)]) 1) (by decide)
